import Mathlib

/-!
Shallow embedding of the fair-queueing simulator engine (`simulator.py`).

The engine replays a time-sorted arrival sequence through three scheduling
disciplines (GPS, Round Robin, Deficit Round Robin) over a shared state:
an arrival feed, per-flow FIFO queues (fixed key set, insertion order),
per-flow metrics (sent bits and delay samples) and a simulation clock.
Machine reals are modelled as exact rationals; Python dictionaries with a
fixed key set are modelled as total functions together with the ordered
key list; the unbounded `while` loops are modelled with explicit fuel
(`none` means the fuel ran out before the loop exited).
-/

/-- `Packet.__init__`: flow id, size, mutable remaining service units
(`remaining_size`, initially `size`), and arrival time. -/
structure Packet where
  flow : ℕ
  size : ℚ
  remaining_size : ℚ
  time : ℚ
deriving DecidableEq, Repr

/-- A packet as built by `Packet.__init__` (remaining equals size). -/
def mk_packet (flow : ℕ) (size : ℚ) (time : ℚ) : Packet :=
  ⟨flow, size, size, time⟩

/-- Pointwise update of a total map, modelling assignment into a dict. -/
def upd {α : Type} (m : ℕ → α) (k : ℕ) (v : α) : ℕ → α :=
  fun g => if g = k then v else m g

theorem upd_same {α : Type} (m : ℕ → α) (k : ℕ) (v : α) : upd m k v k = v := by
  simp [upd]

theorem upd_other {α : Type} (m : ℕ → α) (k : ℕ) (v : α) (g : ℕ) (h : g ≠ k) :
    upd m k v g = m g := by
  simp [upd, h]

/-- First-seen insertion order of flow ids, as produced by the
`for packet in packet_arrivals: if packet.flow not in self.flow_queues`
loop of `QueueingSimulator.__init__`. -/
def flows_of_go (acc : List ℕ) : List Packet → List ℕ
  | [] => acc
  | p :: rest => flows_of_go (if p.flow ∈ acc then acc else acc ++ [p.flow]) rest

def flows_of (arr : List Packet) : List ℕ :=
  flows_of_go [] arr

/-- Shared simulator state (`QueueingSimulator`): the arrival feed, the
link capacity, the ordered flow-key list, the per-flow queues, the two
per-flow metric maps and the clock. -/
structure SimState where
  packet_arrivals : List Packet
  data_rate : ℚ
  flows : List ℕ
  flow_queues : ℕ → List Packet
  sent_bits_per_flow : ℕ → ℚ
  packet_delays_per_flow : ℕ → List ℚ
  time : ℚ

/-- `QueueingSimulator.__init__` after the empty-list index has succeeded:
all flow keys pre-created, metrics zeroed, clock set to the first
arrival's timestamp. -/
def mk_state (arr : List Packet) (rate : ℚ) : SimState :=
  { packet_arrivals := arr
    data_rate := rate
    flows := flows_of arr
    flow_queues := fun _ => []
    sent_bits_per_flow := fun _ => 0
    packet_delays_per_flow := fun _ => []
    time := (arr.headD (mk_packet 0 0 0)).time }

/-- `QueueingSimulator.__init__` as the caller sees it: indexing
`packet_arrivals[0]` raises on an empty list, aborting construction;
nothing else is validated. -/
def mk_simulator (arr : List Packet) (rate : ℚ) : Option SimState :=
  if arr.isEmpty then none else some (mk_state arr rate)

/-- The `while` loop of `enqueue_packets`, recursing on the feed. -/
def enqueue_go (time : ℚ) (arr : List Packet) (q : ℕ → List Packet) :
    List Packet × (ℕ → List Packet) :=
  match arr with
  | [] => ([], q)
  | p :: rest =>
    if p.time ≤ time then enqueue_go time rest (upd q p.flow (q p.flow ++ [p]))
    else (p :: rest, q)

/-- `QueueingSimulator.enqueue_packets`: move every arrival whose
timestamp is at most the clock from the feed to the tail of its flow's
queue. -/
def enqueue_packets (s : SimState) : SimState :=
  let r := enqueue_go s.time s.packet_arrivals s.flow_queues
  { s with packet_arrivals := r.1, flow_queues := r.2 }

/-- `QueueingSimulator.finish_packet`: credit the packet's size to its
flow and append the delay sample `time - arrival - size / rate`. -/
def finish_packet (s : SimState) (p : Packet) : SimState :=
  { s with
    sent_bits_per_flow :=
      upd s.sent_bits_per_flow p.flow (s.sent_bits_per_flow p.flow + p.size)
    packet_delays_per_flow :=
      upd s.packet_delays_per_flow p.flow
        (s.packet_delays_per_flow p.flow ++ [s.time - p.time - p.size / s.data_rate]) }

/-- The shared outer-loop guard: the feed is non-empty or some queue is
non-empty. -/
def outer_guard (s : SimState) : Bool :=
  !s.packet_arrivals.isEmpty || s.flows.any (fun f => !(s.flow_queues f).isEmpty)

/-- The shared idle-skip of RR and DRR: if the feed is non-empty and
every queue is empty, set the clock to the next arrival's timestamp. -/
def idle_skip (s : SimState) : SimState :=
  match s.packet_arrivals with
  | [] => s
  | p :: _ =>
    if s.flows.all (fun f => (s.flow_queues f).isEmpty) then { s with time := p.time }
    else s

/-- One flow's turn in `RoundRobinSimulator.run`: if the queue is
non-empty, pop the head, advance the clock by its serialization time,
record it finished, then re-check arrivals. -/
def rr_turn (s : SimState) (f : ℕ) : SimState :=
  match s.flow_queues f with
  | [] => s
  | p :: rest =>
    let s1 := { s with flow_queues := upd s.flow_queues f rest }
    let s2 := { s1 with time := s1.time + p.size / s1.data_rate }
    enqueue_packets (finish_packet s2 p)

/-- One outer iteration of `RoundRobinSimulator.run`. -/
def rr_iterate (s : SimState) : SimState :=
  idle_skip ((enqueue_packets s).flows.foldl rr_turn (enqueue_packets s))

/-- The outer `while` loop of `RoundRobinSimulator.run`, with fuel. -/
def rr_run : ℕ → SimState → Option SimState
  | 0, _ => none
  | fuel + 1, s => if outer_guard s then rr_run fuel (rr_iterate s) else some s

/-- `DeficitRoundRobinSimulator` state: the shared state plus the
quantum and the per-flow deficit counters. -/
structure DRRState where
  sim : SimState
  quantum : ℚ
  deficit_counters : ℕ → ℚ

/-- `DeficitRoundRobinSimulator.__init__` after the base constructor
succeeded: deficit counters start at zero. -/
def mk_drr_state (arr : List Packet) (rate : ℚ) (quantum : ℚ) : DRRState :=
  { sim := mk_state arr rate, quantum := quantum, deficit_counters := fun _ => 0 }

/-- `DeficitRoundRobinSimulator.__init__` as the caller sees it: aborts
only when the base constructor's `packet_arrivals[0]` raises. -/
def mk_drr (arr : List Packet) (rate : ℚ) (quantum : ℚ) : Option DRRState :=
  if arr.isEmpty then none else some (mk_drr_state arr rate quantum)

/-- One pop of the DRR serve loop: remove the head from the flow's
queue, advance the clock by its serialization time, record it finished,
and spend the deficit. -/
def drr_serve_step (d : DRRState) (f : ℕ) (p : Packet) (rest : List Packet) : DRRState :=
  { sim :=
      finish_packet
        { d.sim with
            flow_queues := upd d.sim.flow_queues f rest
            time := d.sim.time + p.size / d.sim.data_rate } p
    quantum := d.quantum
    deficit_counters := upd d.deficit_counters f (d.deficit_counters f - p.size) }

/-- The serve loop unrolled structurally: the first argument bounds the
number of iterations. Each `drr_serve_step` pops exactly one packet off
the flow's queue, so a bound equal to the queue's length makes this the
exact `while` loop (see `drr_serve` and the unfolding lemmas below). -/
def drr_serve_go : ℕ → DRRState → ℕ → DRRState
  | 0, d, _ => d
  | n + 1, d, f =>
    match d.sim.flow_queues f with
    | [] => d
    | p :: rest =>
      if p.size ≤ d.deficit_counters f then drr_serve_go n (drr_serve_step d f p rest) f
      else d

/-- The inner `while` of a DRR flow turn: while the queue is non-empty
and the deficit covers the head's size, take one `drr_serve_step`. -/
def drr_serve (d : DRRState) (f : ℕ) : DRRState :=
  drr_serve_go (d.sim.flow_queues f).length d f

/-- One flow's turn in `DeficitRoundRobinSimulator.run`: if the queue is
non-empty, add the quantum to the deficit, serve as long as the deficit
covers the head, then re-check arrivals. No reset occurs on an emptied
queue. -/
def drr_turn (d : DRRState) (f : ℕ) : DRRState :=
  if (d.sim.flow_queues f).isEmpty then d
  else
    let d1 :=
      { d with deficit_counters := upd d.deficit_counters f (d.deficit_counters f + d.quantum) }
    let d2 := drr_serve d1 f
    { d2 with sim := enqueue_packets d2.sim }

/-- One outer iteration of `DeficitRoundRobinSimulator.run`. -/
def drr_iterate (d : DRRState) : DRRState :=
  let d1 := { d with sim := enqueue_packets d.sim }
  let d2 := d1.sim.flows.foldl drr_turn d1
  { d2 with sim := idle_skip d2.sim }

/-- The outer `while` loop of `DeficitRoundRobinSimulator.run`. -/
def drr_run : ℕ → DRRState → Option DRRState
  | 0, _ => none
  | fuel + 1, d => if outer_guard d.sim then drr_run fuel (drr_iterate d) else some d

/-- `sys.maxsize` on a 64-bit build, used by GPS as a stand-in for "no
next arrival". -/
def sys_maxsize : ℚ := 9223372036854775807

/-- The Python expression `next_packet_time or sys.maxsize`: `None` and
the falsy timestamp `0` both give `sys.maxsize`. -/
def py_or_maxsize : Option ℚ → ℚ
  | some t => if t = 0 then sys_maxsize else t
  | none => sys_maxsize

/-- Flows with a non-empty queue, in insertion order. -/
def active_flows (s : SimState) : List ℕ :=
  s.flows.filter (fun f => !(s.flow_queues f).isEmpty)

/-- `number_of_active_flows` in `GPSSimulator.run`. -/
def number_of_active_flows (s : SimState) : ℕ :=
  (active_flows s).length

/-- `time_until_next_packet` in `GPSSimulator.run`. -/
def time_until_next_packet (nxt : Option ℚ) (s : SimState) : ℚ :=
  py_or_maxsize nxt - s.time

def head_packet (l : List Packet) : Packet :=
  l.headD (mk_packet 0 0 0)

/-- `skippable_rounds_until_packet_finishes`: the minimum over active
flows of `max(head.remaining_size - 1, 0)`. -/
def skippable_rounds_until_packet_finishes (s : SimState) : ℚ :=
  match (active_flows s).map (fun f => max ((head_packet (s.flow_queues f)).remaining_size - 1) 0) with
  | [] => 0
  | x :: xs => xs.foldl min x

/-- `fully_skippable_rounds`: floor division of the time to the next
arrival by the number of active flows. -/
def fully_skippable_rounds (nxt : Option ℚ) (s : SimState) : ℚ :=
  ((⌊time_until_next_packet nxt s / (number_of_active_flows s : ℚ)⌋ : ℤ) : ℚ)

/-- `skippable_rounds` in `GPSSimulator.run`. -/
def skippable_rounds (nxt : Option ℚ) (s : SimState) : ℚ :=
  min (fully_skippable_rounds nxt s) (skippable_rounds_until_packet_finishes s)

/-- The `skippable_rounds == 0` branch of `GPSSimulator.run`: walk the
flows, breaking when the running `time_until_next_packet` is exactly 0;
each non-empty queue's head gets one service unit (clock advances by
`1/rate`), and a head reaching 0 remaining is popped and finished. The
arrival feed is never consulted here. -/
def gps_unit_pass (s : SimState) (time_until : ℚ) : List ℕ → SimState
  | [] => s
  | f :: rest =>
    if time_until = 0 then s
    else
      match s.flow_queues f with
      | [] => gps_unit_pass s time_until rest
      | p :: q =>
        let s1 := { s with time := s.time + 1 / s.data_rate }
        let tu1 := time_until - 1 / s.data_rate
        let p1 := { p with remaining_size := p.remaining_size - 1 }
        if p1.remaining_size = 0 then
          gps_unit_pass (finish_packet { s1 with flow_queues := upd s1.flow_queues f q } p1) tu1 rest
        else
          gps_unit_pass { s1 with flow_queues := upd s1.flow_queues f (p1 :: q) } tu1 rest

/-- One flow's update in the `else` (bulk) branch of `GPSSimulator.run`:
decrement a non-empty head by `skip`, popping and finishing it if it
reaches exactly 0. -/
def gps_bulk_flow (skip : ℚ) (s : SimState) (f : ℕ) : SimState :=
  match s.flow_queues f with
  | [] => s
  | p :: q =>
    let p1 := { p with remaining_size := p.remaining_size - skip }
    if p1.remaining_size = 0 then finish_packet { s with flow_queues := upd s.flow_queues f q } p1
    else { s with flow_queues := upd s.flow_queues f (p1 :: q) }

/-- One iteration of the inner `while` of `GPSSimulator.run`. -/
def gps_inner_step (nxt : Option ℚ) (s : SimState) : SimState :=
  let skip := skippable_rounds nxt s
  if skip = 0 then gps_unit_pass s (time_until_next_packet nxt s) s.flows
  else
    let s1 := { s with time := s.time + skip / s.data_rate * (number_of_active_flows s : ℚ) }
    s1.flows.foldl (gps_bulk_flow skip) s1

/-- Guard of the inner `while` of `GPSSimulator.run`. -/
def gps_inner_guard (nxt : Option ℚ) (s : SimState) : Bool :=
  (match nxt with
   | none => true
   | some t => decide (s.time < t)) && s.flows.any (fun f => !(s.flow_queues f).isEmpty)

/-- The inner `while` of `GPSSimulator.run`, with fuel. -/
def gps_inner (nxt : Option ℚ) : ℕ → SimState → Option SimState
  | 0, _ => none
  | fuel + 1, s =>
    if gps_inner_guard nxt s then gps_inner nxt fuel (gps_inner_step nxt s) else some s

/-- The trailing idle-skip of `GPSSimulator.run`: if there is a next
arrival strictly in the future, jump the clock to it. -/
def gps_idle (nxt : Option ℚ) (s : SimState) : SimState :=
  match nxt with
  | none => s
  | some t => if s.time < t then { s with time := t } else s

/-- One outer iteration of `GPSSimulator.run`: intake arrivals, fix the
next arrival's timestamp, run the inner loop, idle-skip. -/
def gps_iterate (fuel : ℕ) (s : SimState) : Option SimState :=
  let s1 := enqueue_packets s
  let nxt := (s1.packet_arrivals.head?).map Packet.time
  (gps_inner nxt fuel s1).map (gps_idle nxt)

/-- The outer `while` loop of `GPSSimulator.run`, with fuel. -/
def gps_run : ℕ → SimState → Option SimState
  | 0, _ => none
  | fuel + 1, s =>
    if outer_guard s then (gps_iterate (fuel + 1) s).bind (gps_run fuel) else some s

/-- The natural number `sys.maxsize`. -/
def sys_maxsize_nat : ℕ := 9223372036854775807

/-- Invariant of the stuck GPS run: one flow, rate 1, the head packet's
remaining count is `1/2 - k` after `k` unit grants (never exactly 0),
and the clock is at `k`, capped at `sys.maxsize`. -/
def c2_inv (s : SimState) : Prop :=
  s.data_rate = 1 ∧ s.flows = [0] ∧
  ∃ k : ℕ, k ≤ sys_maxsize_nat ∧ s.time = (k : ℚ) ∧
    s.flow_queues 0 = [{ flow := 0, size := 1 / 2, remaining_size := 1 / 2 - (k : ℚ), time := 0 }]

/-- Well-formed shared state: positive capacity and positive packet
sizes everywhere (the spec's validity preconditions). -/
def wf_sim (s : SimState) : Prop :=
  0 < s.data_rate ∧ (∀ p ∈ s.packet_arrivals, 0 < p.size) ∧
    ∀ f, ∀ p ∈ s.flow_queues f, 0 < p.size

/-- After the enqueue loop, the front of the feed (if any) is strictly
in the future. -/
def front_ahead (s : SimState) : Prop :=
  ∀ p l, s.packet_arrivals = p :: l → s.time < p.time

/-- Total size of a packet list. -/
def size_total (l : List Packet) : ℚ :=
  (l.map Packet.size).sum

/-- `sum(sent_bits_per_flow.values())`. -/
def sent_total (s : SimState) : ℚ :=
  (s.flows.map s.sent_bits_per_flow).sum

/-- Total size of all queued packets. -/
def queued_total (s : SimState) : ℚ :=
  (s.flows.map (fun f => size_total (s.flow_queues f))).sum

/-- The conserved quantity: bits credited as sent plus bits queued plus
bits still in the feed. -/
def qty (s : SimState) : ℚ :=
  sent_total s + queued_total s + size_total s.packet_arrivals

/-- Number of packets of a given flow in a list. -/
def flow_count (l : List Packet) (f : ℕ) : ℕ :=
  (l.filter (fun p => p.flow == f)).length

/-- The conserved per-flow packet count: delay samples recorded plus
packets queued plus packets still in the feed. -/
def cnt (s : SimState) (f : ℕ) : ℕ :=
  (s.packet_delays_per_flow f).length + (s.flow_queues f).length +
    flow_count s.packet_arrivals f

/-- The structural invariant tying the fixed key set to the data. -/
def inv_sim (s : SimState) : Prop :=
  s.flows.Nodup ∧
  (∀ p ∈ s.packet_arrivals, p.flow ∈ s.flows) ∧
  (∀ f, ∀ p ∈ s.flow_queues f, p.flow = f) ∧
  (∀ f, f ∉ s.flows →
    s.flow_queues f = [] ∧ s.sent_bits_per_flow f = 0 ∧ s.packet_delays_per_flow f = [])

/-! ### Frame facts about the shared primitives -/

theorem enqueue_packets_time (s : SimState) : (enqueue_packets s).time = s.time := rfl

theorem enqueue_packets_rate (s : SimState) : (enqueue_packets s).data_rate = s.data_rate := rfl

theorem enqueue_packets_flows (s : SimState) : (enqueue_packets s).flows = s.flows := rfl

theorem enqueue_packets_sent (s : SimState) :
    (enqueue_packets s).sent_bits_per_flow = s.sent_bits_per_flow := rfl

theorem enqueue_packets_delays (s : SimState) :
    (enqueue_packets s).packet_delays_per_flow = s.packet_delays_per_flow := rfl


/-! ### Unfolding and frame lemmas for the DRR serve loop -/

theorem drr_serve_step_queues (d : DRRState) (f : ℕ) (p : Packet) (rest : List Packet) :
    (drr_serve_step d f p rest).sim.flow_queues f = rest := by
  simp [drr_serve_step, finish_packet, upd_same]

theorem drr_serve_eq_nil (d : DRRState) (f : ℕ) (h : d.sim.flow_queues f = []) :
    drr_serve d f = d := by
  simp [drr_serve, h, drr_serve_go]

theorem drr_serve_eq_go (d : DRRState) (f : ℕ) (p : Packet) (rest : List Packet)
    (h : d.sim.flow_queues f = p :: rest) (hle : p.size ≤ d.deficit_counters f) :
    drr_serve d f = drr_serve (drr_serve_step d f p rest) f := by
  have h2 := drr_serve_step_queues d f p rest
  simp only [drr_serve, h, h2, List.length_cons, drr_serve_go, hle, if_true]

theorem drr_serve_eq_stop (d : DRRState) (f : ℕ) (p : Packet) (rest : List Packet)
    (h : d.sim.flow_queues f = p :: rest) (hle : ¬p.size ≤ d.deficit_counters f) :
    drr_serve d f = d := by
  simp only [drr_serve, h, List.length_cons, drr_serve_go, hle, if_false]

/-- Induction principle mirroring the serve `while` loop. -/
theorem drr_serve_induction (motive : DRRState → ℕ → Prop)
    (case1 : ∀ d f, d.sim.flow_queues f = [] → motive d f)
    (case2 : ∀ d f p rest, d.sim.flow_queues f = p :: rest → p.size ≤ d.deficit_counters f →
      motive (drr_serve_step d f p rest) f → motive d f)
    (case3 : ∀ d f p rest, d.sim.flow_queues f = p :: rest → ¬p.size ≤ d.deficit_counters f →
      motive d f) :
    ∀ d f, motive d f := by
  have key : ∀ (n : ℕ) (d : DRRState) (f : ℕ), (d.sim.flow_queues f).length ≤ n → motive d f := by
    intro n
    induction n with
    | zero =>
      intro d f hlen
      exact case1 d f (List.eq_nil_of_length_eq_zero (Nat.le_zero.mp hlen))
    | succ n ih =>
      intro d f hlen
      cases h : d.sim.flow_queues f with
      | nil => exact case1 d f h
      | cons p rest =>
        by_cases hle : p.size ≤ d.deficit_counters f
        · refine case2 d f p rest h hle (ih _ f ?_)
          rw [drr_serve_step_queues]
          have := hlen
          rw [h] at this
          simpa using Nat.lt_succ_iff.mp (Nat.lt_of_lt_of_le (by simp) this)
        · exact case3 d f p rest h hle
  exact fun d f => key (d.sim.flow_queues f).length d f le_rfl

theorem drr_serve_quantum (d : DRRState) (f : ℕ) : (drr_serve d f).quantum = d.quantum := by
  induction d, f using drr_serve_induction with
  | case1 d f hq => rw [drr_serve_eq_nil d f hq]
  | case2 d f p rest hq hle ih => rw [drr_serve_eq_go d f p rest hq hle]; exact ih
  | case3 d f p rest hq hle => rw [drr_serve_eq_stop d f p rest hq hle]

theorem finish_packet_time (s : SimState) (p : Packet) : (finish_packet s p).time = s.time := rfl

theorem finish_packet_arrivals (s : SimState) (p : Packet) :
    (finish_packet s p).packet_arrivals = s.packet_arrivals := rfl

theorem finish_packet_queues (s : SimState) (p : Packet) :
    (finish_packet s p).flow_queues = s.flow_queues := rfl

theorem finish_packet_rate (s : SimState) (p : Packet) :
    (finish_packet s p).data_rate = s.data_rate := rfl

theorem finish_packet_flows (s : SimState) (p : Packet) :
    (finish_packet s p).flows = s.flows := rfl

/-- Inside a DRR service loop, the sum of the flow's deficit counter and
its sent-bits accumulator is conserved: deficit is only ever spent on
the exact size of a packet that was just credited as sent. -/
theorem drr_serve_deficit_sent (d : DRRState) (f : ℕ)
    (hq : ∀ p ∈ d.sim.flow_queues f, p.flow = f) :
    (drr_serve d f).deficit_counters f + (drr_serve d f).sim.sent_bits_per_flow f =
      d.deficit_counters f + d.sim.sent_bits_per_flow f := by
  induction d, f using drr_serve_induction with
  | case1 d f hqe => rw [drr_serve_eq_nil d f hqe]
  | case2 d f p rest hqe hle ih =>
    rw [drr_serve_eq_go d f p rest hqe hle]
    have hpf : p.flow = f := hq p (by rw [hqe]; exact List.mem_cons_self p rest)
    have hrest : ∀ p' ∈ rest, p'.flow = f := fun p' hp' =>
      hq p' (by rw [hqe]; exact List.mem_cons_of_mem p hp')
    have harg : ∀ p' ∈ (drr_serve_step d f p rest).sim.flow_queues f, p'.flow = f := by
      intro p' hp'
      simp only [drr_serve_step, finish_packet, upd_same] at hp'
      exact hrest p' hp'
    rw [ih harg]
    simp [drr_serve_step, finish_packet, upd, hpf]
  | case3 d f p rest hqe hle => rw [drr_serve_eq_stop d f p rest hqe hle]

/-! ### C7: effect of finish_packet on the packet's own flow -/

/-- C7: every call to `finish_packet p` adds exactly `p.size` to the
sent-bits accumulator of `p`'s flow and appends exactly the value
`clock - arrival_time - size / capacity` to that flow's delay list. -/
theorem c7_finish_packet_effect (s : SimState) (p : Packet) :
    (finish_packet s p).sent_bits_per_flow p.flow = s.sent_bits_per_flow p.flow + p.size ∧
    (finish_packet s p).packet_delays_per_flow p.flow =
      s.packet_delays_per_flow p.flow ++ [s.time - p.time - p.size / s.data_rate] := by
  exact ⟨upd_same _ _ _, upd_same _ _ _⟩

/-! ### C10: finish_packet mutates nothing but the packet's flow's metrics -/

/-- C10: `finish_packet` mutates only the two metric entries of the
packet's flow (appending one delay sample); the clock, the arrival
feed, every flow queue, the capacity, the flow list, and every other
flow's metric entries are unchanged. -/
theorem c10_finish_packet_frame (s : SimState) (p : Packet) :
    (finish_packet s p).time = s.time ∧
    (finish_packet s p).packet_arrivals = s.packet_arrivals ∧
    (finish_packet s p).flow_queues = s.flow_queues ∧
    (finish_packet s p).data_rate = s.data_rate ∧
    (finish_packet s p).flows = s.flows ∧
    (∀ g, g ≠ p.flow →
      (finish_packet s p).sent_bits_per_flow g = s.sent_bits_per_flow g ∧
      (finish_packet s p).packet_delays_per_flow g = s.packet_delays_per_flow g) ∧
    (finish_packet s p).packet_delays_per_flow p.flow =
      s.packet_delays_per_flow p.flow ++ [s.time - p.time - p.size / s.data_rate] := by
  refine ⟨rfl, rfl, rfl, rfl, rfl, fun g hg => ⟨upd_other _ _ _ g hg, upd_other _ _ _ g hg⟩,
    upd_same _ _ _⟩

theorem c10_witness :
    (1 : ℕ) ≠ (mk_packet 0 5 2).flow ∧
    (finish_packet (mk_state [mk_packet 0 5 2] 1) (mk_packet 0 5 2)).sent_bits_per_flow 1 =
      (mk_state [mk_packet 0 5 2] 1).sent_bits_per_flow 1 :=
  ⟨by decide,
    ((c10_finish_packet_frame (mk_state [mk_packet 0 5 2] 1)
      (mk_packet 0 5 2)).2.2.2.2.2.1 1 (by decide)).1⟩

/-! ### C3: what construction actually validates -/

/-- C3 counterexample: the claim says a non-positive capacity, a
non-positive quantum, or a negative packet size makes construction
signal a configuration error and abort. In the code no such validation
exists: both the base constructor and the DRR constructor happily
produce a usable instance from a negative-size packet, zero capacity
and zero quantum. -/
theorem c3_counterexample :
    (mk_simulator [mk_packet 0 (-1) 0] 0).isSome = true ∧
    (mk_drr [mk_packet 0 (-1) 0] 0 0).isSome = true := by
  exact ⟨rfl, rfl⟩

/-- C3 amended: construction aborts exactly when the arrival sequence
is empty (the `packet_arrivals[0]` index raises); non-positive
capacity, non-positive quantum and negative packet sizes are accepted
and produce a usable scheduler instance. -/
theorem c3_construction_checks_only_emptiness (arr : List Packet) (rate quantum : ℚ) :
    ((mk_simulator arr rate).isSome = true ↔ arr ≠ []) ∧
    ((mk_drr arr rate quantum).isSome = true ↔ arr ≠ []) := by
  constructor <;>
    · simp only [mk_simulator, mk_drr]
      cases arr <;> simp

/-! ### C1: the deficit counter is not reset when a queue empties -/

/-- C1 counterexample: run DRR on a single flow with one packet of size
100, quantum 500, capacity 1. After the flow's (only) service turn its
queue is empty, yet at the end of `run` its deficit counter holds 400,
not 0: the code never resets a deficit counter. -/
theorem c1_counterexample :
    (drr_run 5 (mk_drr_state [mk_packet 0 100 0] 1 500)).map
        (fun d => (d.deficit_counters 0, (d.sim.flow_queues 0).isEmpty)) =
      some (400, true) := by
  with_unfolding_all decide

/-- C1 amended: for a flow whose queue is non-empty at its service
turn, the turn leaves the flow's deficit counter at its previous value
plus the quantum minus exactly the bits sent from that flow during the
turn. In particular, when the queue has been emptied the counter
retains the unspent credit and is not reset to zero. -/
theorem c1_deficit_persists (d : DRRState) (f : ℕ)
    (hne : (d.sim.flow_queues f).isEmpty = false)
    (hq : ∀ p ∈ d.sim.flow_queues f, p.flow = f) :
    (drr_turn d f).deficit_counters f =
      d.deficit_counters f + d.quantum -
        ((drr_turn d f).sim.sent_bits_per_flow f - d.sim.sent_bits_per_flow f) := by
  rw [drr_turn]
  simp only [hne, Bool.false_eq_true, if_false]
  have hcons := drr_serve_deficit_sent
    { d with deficit_counters := upd d.deficit_counters f (d.deficit_counters f + d.quantum) } f hq
  simp only [upd_same] at hcons
  simp only [enqueue_packets_sent]
  linarith

theorem c1_witness :
    ((enqueue_packets (mk_state [mk_packet 0 100 0] 1)).flow_queues 0).isEmpty = false ∧
    (drr_turn
        { sim := enqueue_packets (mk_state [mk_packet 0 100 0] 1)
          quantum := 500
          deficit_counters := fun _ => 0 } 0).deficit_counters 0 =
      0 + 500 -
        ((drr_turn
            { sim := enqueue_packets (mk_state [mk_packet 0 100 0] 1)
              quantum := 500
              deficit_counters := fun _ => 0 } 0).sim.sent_bits_per_flow 0 - 0) :=
  ⟨by with_unfolding_all decide,
    c1_deficit_persists
      { sim := enqueue_packets (mk_state [mk_packet 0 100 0] 1)
        quantum := 500
        deficit_counters := fun _ => 0 } 0 (by with_unfolding_all decide)
      (by with_unfolding_all decide)⟩

/-! ### C9: deficit counters never go negative -/

theorem drr_serve_nonneg (d : DRRState) (f : ℕ)
    (hd : ∀ g, 0 ≤ d.deficit_counters g) :
    ∀ g, 0 ≤ (drr_serve d f).deficit_counters g := by
  induction d, f using drr_serve_induction with
  | case1 d f hqe => rw [drr_serve_eq_nil d f hqe]; exact fun g => hd g
  | case2 d f p rest hqe hle ih =>
    rw [drr_serve_eq_go d f p rest hqe hle]
    intro g
    refine ih ?_ g
    intro g'
    by_cases hg : g' = f
    · subst hg
      simp only [drr_serve_step, upd_same]
      linarith [hle]
    · simp only [drr_serve_step, upd_other _ _ _ _ hg]
      exact hd g'
  | case3 d f p rest hqe hle => rw [drr_serve_eq_stop d f p rest hqe hle]; exact fun g => hd g

theorem drr_turn_quantum (d : DRRState) (f : ℕ) : (drr_turn d f).quantum = d.quantum := by
  rw [drr_turn]
  by_cases h : (d.sim.flow_queues f).isEmpty
  · simp [h]
  · simp only [h, Bool.false_eq_true, if_false]
    exact drr_serve_quantum _ f

theorem drr_turn_nonneg (d : DRRState) (f : ℕ) (hq : 0 ≤ d.quantum)
    (hd : ∀ g, 0 ≤ d.deficit_counters g) :
    ∀ g, 0 ≤ (drr_turn d f).deficit_counters g := by
  rw [drr_turn]
  by_cases h : (d.sim.flow_queues f).isEmpty
  · simp only [h, if_true]
    exact hd
  · simp only [h, Bool.false_eq_true, if_false]
    intro g
    refine drr_serve_nonneg _ f ?_ g
    intro g'
    by_cases hg : g' = f
    · subst hg
      simp only [upd_same]
      linarith [hd g']
    · simp only [upd_other _ _ _ _ hg]
      exact hd g'

theorem drr_foldl_turn_quantum (fs : List ℕ) (d : DRRState) :
    (fs.foldl drr_turn d).quantum = d.quantum := by
  induction fs generalizing d with
  | nil => rfl
  | cons f fs ih => rw [List.foldl_cons, ih, drr_turn_quantum]

theorem drr_foldl_turn_nonneg (fs : List ℕ) (d : DRRState) (hq : 0 ≤ d.quantum)
    (hd : ∀ g, 0 ≤ d.deficit_counters g) :
    ∀ g, 0 ≤ (fs.foldl drr_turn d).deficit_counters g := by
  induction fs generalizing d with
  | nil => exact hd
  | cons f fs ih =>
    rw [List.foldl_cons]
    refine ih (drr_turn d f) ?_ (drr_turn_nonneg d f hq hd)
    rw [drr_turn_quantum]
    exact hq

theorem drr_iterate_quantum (d : DRRState) : (drr_iterate d).quantum = d.quantum := by
  rw [drr_iterate]
  exact drr_foldl_turn_quantum _ _

theorem drr_iterate_nonneg (d : DRRState) (hq : 0 ≤ d.quantum)
    (hd : ∀ g, 0 ≤ d.deficit_counters g) :
    ∀ g, 0 ≤ (drr_iterate d).deficit_counters g := by
  rw [drr_iterate]
  exact drr_foldl_turn_nonneg _ _ hq hd

/-- C9: every flow's deficit counter is non-negative at every point of
a DRR run: counters start at zero, a counter is only ever decremented
by a packet's size when it already covers that size, and non-negativity
is preserved by every serve step, every flow turn, every outer
iteration, and hence by any completed `run`. -/
theorem c9_deficit_nonneg :
    (∀ arr rate quantum f, (mk_drr_state arr rate quantum).deficit_counters f = 0) ∧
    (∀ d f, (∀ g, 0 ≤ d.deficit_counters g) → ∀ g, 0 ≤ (drr_serve d f).deficit_counters g) ∧
    (∀ d f, 0 ≤ d.quantum → (∀ g, 0 ≤ d.deficit_counters g) →
      ∀ g, 0 ≤ (drr_turn d f).deficit_counters g) ∧
    (∀ d, 0 ≤ d.quantum → (∀ g, 0 ≤ d.deficit_counters g) →
      ∀ g, 0 ≤ (drr_iterate d).deficit_counters g) ∧
    (∀ fuel d d', 0 ≤ d.quantum → (∀ g, 0 ≤ d.deficit_counters g) →
      drr_run fuel d = some d' → ∀ g, 0 ≤ d'.deficit_counters g) := by
  refine ⟨fun arr rate quantum f => rfl, drr_serve_nonneg, drr_turn_nonneg,
    drr_iterate_nonneg, ?_⟩
  intro fuel
  induction fuel with
  | zero => intro d d' _ _ h; exact absurd h (by simp [drr_run])
  | succ fuel ih =>
    intro d d' hq hd h
    rw [drr_run] at h
    by_cases hg : outer_guard d.sim
    · rw [if_pos hg] at h
      refine ih (drr_iterate d) d' ?_ (drr_iterate_nonneg d hq hd) h
      rw [drr_iterate_quantum]
      exact hq
    · rw [if_neg hg] at h
      cases h
      exact hd

theorem c9_witness :
    (0 : ℚ) ≤ (mk_drr_state [mk_packet 0 100 0] 1 500).quantum ∧
    ∀ g, 0 ≤ (drr_iterate (mk_drr_state [mk_packet 0 100 0] 1 500)).deficit_counters g :=
  ⟨by norm_num [mk_drr_state],
    c9_deficit_nonneg.2.2.2.1 (mk_drr_state [mk_packet 0 100 0] 1 500)
      (by norm_num [mk_drr_state]) (fun g => le_refl 0)⟩

/-! ### C5: the GPS bulk (round-skipping) step -/

theorem foldl_min_le_mem (x : ℚ) (xs : List ℚ) : ∀ y ∈ x :: xs, xs.foldl min x ≤ y := by
  induction xs generalizing x with
  | nil =>
    intro y hy
    rw [List.mem_singleton] at hy
    subst hy
    exact le_refl _
  | cons z zs ih =>
    intro y hy
    rw [List.foldl_cons]
    rcases List.mem_cons.mp hy with h | h
    · subst h
      exact le_trans (ih (min y z) (min y z) (List.mem_cons_self _ _)) (min_le_left _ _)
    · rcases List.mem_cons.mp h with h2 | h2
      · subst h2
        exact le_trans (ih (min x y) (min x y) (List.mem_cons_self _ _)) (min_le_right _ _)
      · exact ih (min x z) y (List.mem_cons_of_mem _ h2)

theorem foldl_min_mem (x : ℚ) (xs : List ℚ) : xs.foldl min x ∈ x :: xs := by
  induction xs generalizing x with
  | nil => exact List.mem_singleton.mpr rfl
  | cons z zs ih =>
    rw [List.foldl_cons]
    rcases List.mem_cons.mp (ih (min x z)) with h | h
    · rw [h]
      rcases min_choice x z with hm | hm <;> rw [hm]
      · exact List.mem_cons_self _ _
      · exact List.mem_cons_of_mem _ (List.mem_cons_self _ _)
    · exact List.mem_cons_of_mem _ (List.mem_cons_of_mem _ h)

theorem skippable_rounds_until_nonneg (s : SimState) :
    0 ≤ skippable_rounds_until_packet_finishes s := by
  rw [skippable_rounds_until_packet_finishes]
  cases hm : (active_flows s).map
      (fun f => max ((head_packet (s.flow_queues f)).remaining_size - 1) 0) with
  | nil => exact le_refl 0
  | cons x xs =>
    show 0 ≤ xs.foldl min x
    have hin : xs.foldl min x ∈ x :: xs := foldl_min_mem x xs
    rw [← hm] at hin
    rcases List.mem_map.mp hin with ⟨f, _, hf⟩
    rw [← hf]
    exact le_max_right _ _

/-- Any active flow's `max(head remaining - 1, 0)` bounds the minimum. -/
theorem skippable_rounds_until_le (s : SimState) (f : ℕ) (hf : f ∈ active_flows s) :
    skippable_rounds_until_packet_finishes s ≤
      max ((head_packet (s.flow_queues f)).remaining_size - 1) 0 := by
  rw [skippable_rounds_until_packet_finishes]
  have hmem : max ((head_packet (s.flow_queues f)).remaining_size - 1) 0 ∈
      (active_flows s).map
        (fun g => max ((head_packet (s.flow_queues g)).remaining_size - 1) 0) :=
    List.mem_map.mpr ⟨f, hf, rfl⟩
  cases hm : (active_flows s).map
      (fun g => max ((head_packet (s.flow_queues g)).remaining_size - 1) 0) with
  | nil => rw [hm] at hmem; exact absurd hmem (List.not_mem_nil _)
  | cons x xs =>
    rw [hm] at hmem
    show xs.foldl min x ≤ _
    exact foldl_min_le_mem x xs _ hmem

theorem gps_bulk_flow_nil (skip : ℚ) (s : SimState) (f : ℕ) (h : s.flow_queues f = []) :
    gps_bulk_flow skip s f = s := by
  simp only [gps_bulk_flow, h]

theorem gps_bulk_flow_cons (skip : ℚ) (s : SimState) (f : ℕ) (p : Packet) (rest : List Packet)
    (h : s.flow_queues f = p :: rest) (hnz : p.remaining_size - skip ≠ 0) :
    gps_bulk_flow skip s f =
      { s with
        flow_queues :=
          upd s.flow_queues f ({ p with remaining_size := p.remaining_size - skip } :: rest) } := by
  simp only [gps_bulk_flow, h]
  exact if_neg hnz

/-- Characterization of the bulk decrement pass when no head can reach
exactly zero: the pass only rewrites the non-empty queue heads of the
visited flows, leaving every other field of the state alone. -/
theorem gps_bulk_foldl (skip : ℚ) (fs : List ℕ) (s : SimState) (hnd : fs.Nodup)
    (hne : ∀ f ∈ fs, ∀ p rest, s.flow_queues f = p :: rest → p.remaining_size - skip ≠ 0) :
    (fs.foldl (gps_bulk_flow skip) s).time = s.time ∧
    (fs.foldl (gps_bulk_flow skip) s).sent_bits_per_flow = s.sent_bits_per_flow ∧
    (fs.foldl (gps_bulk_flow skip) s).packet_delays_per_flow = s.packet_delays_per_flow ∧
    (fs.foldl (gps_bulk_flow skip) s).packet_arrivals = s.packet_arrivals ∧
    (fs.foldl (gps_bulk_flow skip) s).data_rate = s.data_rate ∧
    (fs.foldl (gps_bulk_flow skip) s).flows = s.flows ∧
    (∀ f, f ∉ fs → (fs.foldl (gps_bulk_flow skip) s).flow_queues f = s.flow_queues f) ∧
    (∀ f ∈ fs, ∀ p rest, s.flow_queues f = p :: rest →
      (fs.foldl (gps_bulk_flow skip) s).flow_queues f =
        { p with remaining_size := p.remaining_size - skip } :: rest) := by
  induction fs generalizing s with
  | nil =>
    exact ⟨rfl, rfl, rfl, rfl, rfl, rfl, fun f _ => rfl, fun f hf => absurd hf (List.not_mem_nil f)⟩
  | cons f fs ih =>
    have hnd2 := List.nodup_cons.mp hnd
    have hq1 : ∀ g, g ≠ f → (gps_bulk_flow skip s f).flow_queues g = s.flow_queues g := by
      intro g hg
      cases hq : s.flow_queues f with
      | nil => rw [gps_bulk_flow_nil skip s f hq]
      | cons p rest =>
        rw [gps_bulk_flow_cons skip s f p rest hq (hne f (List.mem_cons_self _ _) p rest hq)]
        exact upd_other _ _ _ g hg
    have hq2 : ∀ p rest, s.flow_queues f = p :: rest →
        (gps_bulk_flow skip s f).flow_queues f =
          { p with remaining_size := p.remaining_size - skip } :: rest := by
      intro p rest hq
      rw [gps_bulk_flow_cons skip s f p rest hq (hne f (List.mem_cons_self _ _) p rest hq)]
      exact upd_same _ _ _
    have hfr : (gps_bulk_flow skip s f).time = s.time ∧
        (gps_bulk_flow skip s f).sent_bits_per_flow = s.sent_bits_per_flow ∧
        (gps_bulk_flow skip s f).packet_delays_per_flow = s.packet_delays_per_flow ∧
        (gps_bulk_flow skip s f).packet_arrivals = s.packet_arrivals ∧
        (gps_bulk_flow skip s f).data_rate = s.data_rate ∧
        (gps_bulk_flow skip s f).flows = s.flows := by
      cases hq : s.flow_queues f with
      | nil => rw [gps_bulk_flow_nil skip s f hq]; exact ⟨rfl, rfl, rfl, rfl, rfl, rfl⟩
      | cons p rest =>
        rw [gps_bulk_flow_cons skip s f p rest hq (hne f (List.mem_cons_self _ _) p rest hq)]
        exact ⟨rfl, rfl, rfl, rfl, rfl, rfl⟩
    have hne2 : ∀ g ∈ fs, ∀ p rest, (gps_bulk_flow skip s f).flow_queues g = p :: rest →
        p.remaining_size - skip ≠ 0 := by
      intro g hg p rest hq
      have hgf : g ≠ f := fun h => hnd2.1 (h ▸ hg)
      rw [hq1 g hgf] at hq
      exact hne g (List.mem_cons_of_mem _ hg) p rest hq
    have ihh := ih (gps_bulk_flow skip s f) hnd2.2 hne2
    rw [List.foldl_cons]
    refine ⟨ihh.1.trans hfr.1, ihh.2.1.trans hfr.2.1, ihh.2.2.1.trans hfr.2.2.1,
      ihh.2.2.2.1.trans hfr.2.2.2.1, ihh.2.2.2.2.1.trans hfr.2.2.2.2.1,
      ihh.2.2.2.2.2.1.trans hfr.2.2.2.2.2, ?_, ?_⟩
    · intro g hg
      have hgfs : g ∉ fs := fun h => hg (List.mem_cons_of_mem _ h)
      have hgf : g ≠ f := fun h => hg (h ▸ List.mem_cons_self _ _)
      rw [ihh.2.2.2.2.2.2.1 g hgfs]
      exact hq1 g hgf
    · intro g hg p rest hq
      rcases List.mem_cons.mp hg with h | h
      · subst h
        rw [ihh.2.2.2.2.2.2.1 g hnd2.1]
        exact hq2 p rest hq
      · refine ihh.2.2.2.2.2.2.2 g h p rest ?_
        have hgf : g ≠ f := fun heq => hnd2.1 (heq ▸ h)
        rw [hq1 g hgf]
        exact hq

/-- When the computed skip is positive, every active head has at least
`skip + 1` remaining units, so no head can reach exactly zero in the
bulk decrement. -/
theorem gps_skip_keeps_heads (nxt : Option ℚ) (s : SimState)
    (hpos : 0 < skippable_rounds nxt s) :
    ∀ f ∈ s.flows, ∀ p rest, s.flow_queues f = p :: rest →
      p.remaining_size - skippable_rounds nxt s ≠ 0 := by
  intro f hf p rest hq
  have hact : f ∈ active_flows s := List.mem_filter.mpr ⟨hf, by simp [hq]⟩
  have hle := skippable_rounds_until_le s f hact
  have hmin : skippable_rounds nxt s ≤ skippable_rounds_until_packet_finishes s :=
    min_le_right _ _
  have hhead : head_packet (s.flow_queues f) = p := by rw [hq]; rfl
  rw [hhead] at hle
  rcases le_or_lt (p.remaining_size - 1) 0 with h | h
  · rw [max_eq_right h] at hle
    linarith
  · rw [max_eq_left (le_of_lt h)] at hle
    intro heq
    linarith

/-- C5: in a GPS inner-loop iteration with positive skip, the clock
advances by exactly `skip * active_count / capacity`, every active
head's remaining count decreases by exactly `skip` (its queue otherwise
untouched), and no packet completes: the metric maps and the arrival
feed are unchanged. `skippable_rounds` is, per the code, the minimum of
`floor(time_until_next_packet / active_count)` and the minimum over
active flows of `max(head remaining - 1, 0)`. -/
theorem c5_bulk_step (nxt : Option ℚ) (s : SimState) (hnd : s.flows.Nodup)
    (hpos : 0 < skippable_rounds nxt s) :
    (gps_inner_step nxt s).time =
      s.time + skippable_rounds nxt s / s.data_rate * (number_of_active_flows s : ℚ) ∧
    (∀ f ∈ s.flows, ∀ p rest, s.flow_queues f = p :: rest →
      (gps_inner_step nxt s).flow_queues f =
        { p with remaining_size := p.remaining_size - skippable_rounds nxt s } :: rest) ∧
    (gps_inner_step nxt s).sent_bits_per_flow = s.sent_bits_per_flow ∧
    (gps_inner_step nxt s).packet_delays_per_flow = s.packet_delays_per_flow ∧
    (gps_inner_step nxt s).packet_arrivals = s.packet_arrivals := by
  have hne := gps_skip_keeps_heads nxt s hpos
  have hstep : gps_inner_step nxt s =
      s.flows.foldl (gps_bulk_flow (skippable_rounds nxt s))
        { s with
          time :=
            s.time +
              skippable_rounds nxt s / s.data_rate * (number_of_active_flows s : ℚ) } := by
    rw [gps_inner_step]
    exact if_neg (ne_of_gt hpos)
  have bulk := gps_bulk_foldl (skippable_rounds nxt s) s.flows
    { s with
      time :=
        s.time + skippable_rounds nxt s / s.data_rate * (number_of_active_flows s : ℚ) }
    hnd hne
  rw [hstep]
  exact ⟨bulk.1, bulk.2.2.2.2.2.2.2, bulk.2.1, bulk.2.2.1, bulk.2.2.2.1⟩

theorem c5_witness :
    (enqueue_packets (mk_state [mk_packet 0 10 0, mk_packet 1 5 0] 1)).flows.Nodup ∧
    0 < skippable_rounds none (enqueue_packets (mk_state [mk_packet 0 10 0, mk_packet 1 5 0] 1)) ∧
    (gps_inner_step none (enqueue_packets (mk_state [mk_packet 0 10 0, mk_packet 1 5 0] 1))).time =
      (enqueue_packets (mk_state [mk_packet 0 10 0, mk_packet 1 5 0] 1)).time +
        skippable_rounds none (enqueue_packets (mk_state [mk_packet 0 10 0, mk_packet 1 5 0] 1)) /
          (enqueue_packets (mk_state [mk_packet 0 10 0, mk_packet 1 5 0] 1)).data_rate *
          (number_of_active_flows (enqueue_packets (mk_state [mk_packet 0 10 0, mk_packet 1 5 0] 1)) : ℚ) :=
  ⟨by with_unfolding_all decide, by with_unfolding_all decide,
    (c5_bulk_step none (enqueue_packets (mk_state [mk_packet 0 10 0, mk_packet 1 5 0] 1))
      (by with_unfolding_all decide) (by with_unfolding_all decide)).1⟩

/-! ### C4: what the GPS unit pass does between grants -/

theorem gps_unit_pass_arrivals (s : SimState) (tu : ℚ) (fs : List ℕ) :
    (gps_unit_pass s tu fs).packet_arrivals = s.packet_arrivals := by
  induction fs generalizing s tu with
  | nil => rfl
  | cons f fs ih =>
    rw [gps_unit_pass]
    by_cases htu : tu = 0
    · rw [if_pos htu]
    · rw [if_neg htu]
      cases hq : s.flow_queues f with
      | nil => exact ih s tu
      | cons p q =>
        by_cases hz : p.remaining_size - 1 = 0
        · simp only [hz, if_pos]
          rw [ih]
          rfl
        · simp only [hz, if_neg, if_false]
          rw [ih]

theorem gps_unit_pass_break (s : SimState) (f : ℕ) (fs : List ℕ) :
    gps_unit_pass s 0 (f :: fs) = s := by
  rw [gps_unit_pass, if_pos rfl]

theorem gps_unit_pass_skip_empty (s : SimState) (tu : ℚ) (f : ℕ) (fs : List ℕ)
    (htu : tu ≠ 0) (hq : s.flow_queues f = []) :
    gps_unit_pass s tu (f :: fs) = gps_unit_pass s tu fs := by
  rw [gps_unit_pass, if_neg htu, hq]

theorem gps_unit_pass_grant (s : SimState) (tu : ℚ) (f : ℕ) (fs : List ℕ)
    (p : Packet) (q : List Packet) (htu : tu ≠ 0) (hq : s.flow_queues f = p :: q)
    (hz : p.remaining_size - 1 ≠ 0) :
    gps_unit_pass s tu (f :: fs) =
      gps_unit_pass
        { s with
          time := s.time + 1 / s.data_rate
          flow_queues :=
            upd s.flow_queues f ({ p with remaining_size := p.remaining_size - 1 } :: q) }
        (tu - 1 / s.data_rate) fs := by
  rw [gps_unit_pass, if_neg htu, hq]
  simp only [hz, if_neg, if_false]

theorem gps_unit_pass_grant_finish (s : SimState) (tu : ℚ) (f : ℕ) (fs : List ℕ)
    (p : Packet) (q : List Packet) (htu : tu ≠ 0) (hq : s.flow_queues f = p :: q)
    (hz : p.remaining_size - 1 = 0) :
    gps_unit_pass s tu (f :: fs) =
      gps_unit_pass
        (finish_packet
          { s with
            time := s.time + 1 / s.data_rate
            flow_queues := upd s.flow_queues f q }
          { p with remaining_size := p.remaining_size - 1 })
        (tu - 1 / s.data_rate) fs := by
  rw [gps_unit_pass, if_neg htu, hq]
  simp only [hz, if_pos]

/-- C4 counterexample. Input: flows 0 and 1 each with a size-10 packet
at t = 0, flow 2 with a size-1 packet at t = 1/2, capacity 1. In the
first inner iteration (skip = 0, next arrival at 1/2), flow 0's unit
grant moves the clock to 1, making flow 2's arrival eligible; the claim
then requires it to be enqueued before flow 1's unit is granted. The
code instead grants flow 1 its unit (head remaining drops 10 to 9)
while the arrival is still sitting in the feed and flow 2's queue stays
empty at the end of the pass. -/
theorem c4_counterexample :
    let s1 := enqueue_packets (mk_state [mk_packet 0 10 0, mk_packet 1 10 0, mk_packet 2 1 (1/2)] 1)
    let S := gps_inner_step (some (1/2)) s1
    gps_inner_guard (some (1/2)) s1 = true ∧
    (s1.packet_arrivals.head?).map Packet.time = some (1/2) ∧
    skippable_rounds (some (1/2)) s1 = 0 ∧
    (mk_packet 2 1 (1/2)).time ≤ s1.time + 1 / s1.data_rate ∧
    (s1.flow_queues 1).headD (mk_packet 0 0 0) = mk_packet 1 10 0 ∧
    (S.flow_queues 1).headD (mk_packet 0 0 0) =
      { mk_packet 1 10 0 with remaining_size := 9 } ∧
    S.time = 2 ∧
    S.packet_arrivals = [mk_packet 2 1 (1/2)] ∧
    S.flow_queues 2 = [] := by
  with_unfolding_all decide

/-- C4 amended: in the `skip == 0` branch GPS processes one unit per
active flow visited — the clock advances by `1/capacity`, the head's
remaining count drops by 1, and `finish` is called immediately when it
reaches 0 — but the pass consults the arrival feed between grants only
through the running `time_until_next_packet` counter: it stops early
exactly when that counter hits 0, and newly eligible arrivals are never
enqueued inside the pass (the feed is incorporated only at the top of
the next outer iteration). -/
theorem c4_unit_pass_no_arrival_intake :
    (∀ s tu fs, (gps_unit_pass s tu fs).packet_arrivals = s.packet_arrivals) ∧
    (∀ s f fs, gps_unit_pass s 0 (f :: fs) = s) ∧
    (∀ s tu f fs, tu ≠ 0 → s.flow_queues f = [] →
      gps_unit_pass s tu (f :: fs) = gps_unit_pass s tu fs) ∧
    (∀ s tu f fs p q, tu ≠ 0 → s.flow_queues f = p :: q → p.remaining_size - 1 ≠ 0 →
      gps_unit_pass s tu (f :: fs) =
        gps_unit_pass
          { s with
            time := s.time + 1 / s.data_rate
            flow_queues :=
              upd s.flow_queues f ({ p with remaining_size := p.remaining_size - 1 } :: q) }
          (tu - 1 / s.data_rate) fs) ∧
    (∀ s tu f fs p q, tu ≠ 0 → s.flow_queues f = p :: q → p.remaining_size - 1 = 0 →
      gps_unit_pass s tu (f :: fs) =
        gps_unit_pass
          (finish_packet
            { s with
              time := s.time + 1 / s.data_rate
              flow_queues := upd s.flow_queues f q }
            { p with remaining_size := p.remaining_size - 1 })
          (tu - 1 / s.data_rate) fs) :=
  ⟨gps_unit_pass_arrivals,
    gps_unit_pass_break,
    fun s tu f fs htu hq => gps_unit_pass_skip_empty s tu f fs htu hq,
    fun s tu f fs p q htu hq hz => gps_unit_pass_grant s tu f fs p q htu hq hz,
    fun s tu f fs p q htu hq hz => gps_unit_pass_grant_finish s tu f fs p q htu hq hz⟩

theorem c4_witness :
    ((1 : ℚ) ≠ 0) ∧
    (enqueue_packets (mk_state [mk_packet 0 2 0] 1)).flow_queues 0 =
      [mk_packet 0 2 0] ∧
    (mk_packet 0 2 0).remaining_size - 1 ≠ 0 ∧
    gps_unit_pass (enqueue_packets (mk_state [mk_packet 0 2 0] 1)) 1 [0] =
      gps_unit_pass
        { enqueue_packets (mk_state [mk_packet 0 2 0] 1) with
          time :=
            (enqueue_packets (mk_state [mk_packet 0 2 0] 1)).time +
              1 / (enqueue_packets (mk_state [mk_packet 0 2 0] 1)).data_rate
          flow_queues :=
            upd (enqueue_packets (mk_state [mk_packet 0 2 0] 1)).flow_queues 0
              ({ mk_packet 0 2 0 with
                  remaining_size := (mk_packet 0 2 0).remaining_size - 1 } :: []) }
        (1 - 1 / (enqueue_packets (mk_state [mk_packet 0 2 0] 1)).data_rate) [] :=
  ⟨by norm_num, by with_unfolding_all decide, by with_unfolding_all decide,
    c4_unit_pass_no_arrival_intake.2.2.2.1 (enqueue_packets (mk_state [mk_packet 0 2 0] 1)) 1 0 []
      (mk_packet 0 2 0) [] (by norm_num) (by with_unfolding_all decide)
      (by with_unfolding_all decide)⟩

/-! ### C2: the GPS run loop does not terminate on fractional sizes -/

theorem nat_cast_ne_half (n : ℕ) : (n : ℚ) ≠ 1 / 2 := by
  intro h
  have h2 : ((2 * n : ℕ) : ℚ) = ((1 : ℕ) : ℚ) := by push_cast; linarith
  have := Nat.cast_injective h2
  omega



theorem sys_maxsize_eq : sys_maxsize = (sys_maxsize_nat : ℚ) := by
  norm_num [sys_maxsize, sys_maxsize_nat]



theorem c2_inv_guard (s : SimState) (hs : c2_inv s) : gps_inner_guard none s = true := by
  obtain ⟨hrate, hflows, k, hk, htime, hqueue⟩ := hs
  simp [gps_inner_guard, hflows, hqueue]

theorem c2_inv_step (s : SimState) (hs : c2_inv s) : c2_inv (gps_inner_step none s) := by
  obtain ⟨hrate, hflows, k, hk, htime, hqueue⟩ := hs
  have hk0 : (0 : ℚ) ≤ (k : ℚ) := Nat.cast_nonneg k
  have hactive : active_flows s = [0] := by
    simp [active_flows, hflows, hqueue]
  have hnum : number_of_active_flows s = 1 := by
    rw [number_of_active_flows, hactive]
    rfl
  have htun : time_until_next_packet none s = sys_maxsize - (k : ℚ) := by
    rw [time_until_next_packet, py_or_maxsize, htime]
  have htun_cast : time_until_next_packet none s = ((sys_maxsize_nat - k : ℕ) : ℚ) := by
    rw [htun, sys_maxsize_eq]
    push_cast [hk]
    ring
  have huntil : skippable_rounds_until_packet_finishes s = 0 := by
    rw [skippable_rounds_until_packet_finishes, hactive]
    show max ((head_packet (s.flow_queues 0)).remaining_size - 1) 0 = 0
    rw [hqueue]
    show max ((1 / 2 - (k : ℚ)) - 1) 0 = 0
    rw [max_eq_right]
    linarith
  have h0fully : 0 ≤ fully_skippable_rounds none s := by
    rw [fully_skippable_rounds, htun_cast, hnum]
    have hfl : (0 : ℤ) ≤ ⌊((sys_maxsize_nat - k : ℕ) : ℚ) / ((1 : ℕ) : ℚ)⌋ := by
      apply Int.floor_nonneg.mpr
      positivity
    exact_mod_cast hfl
  have hskip : skippable_rounds none s = 0 := by
    rw [skippable_rounds, huntil]
    exact min_eq_right h0fully
  have hstep : gps_inner_step none s = gps_unit_pass s (time_until_next_packet none s) s.flows := by
    rw [gps_inner_step]
    exact if_pos hskip
  rcases eq_or_lt_of_le hk with hkeq | hklt
  · have htu0 : time_until_next_packet none s = 0 := by
      rw [htun_cast, hkeq]
      rw [Nat.sub_self]
      norm_num
    rw [hstep, hflows, htu0, gps_unit_pass_break]
    exact ⟨hrate, hflows, k, hk, htime, hqueue⟩
  · have htune : time_until_next_packet none s ≠ 0 := by
      rw [htun_cast]
      have hpos : 0 < sys_maxsize_nat - k := Nat.sub_pos_of_lt hklt
      positivity
    have hz : ({ flow := 0, size := 1 / 2, remaining_size := 1 / 2 - (k : ℚ), time := 0 } :
        Packet).remaining_size - 1 ≠ 0 := by
      show 1 / 2 - (k : ℚ) - 1 ≠ 0
      intro h
      linarith
    rw [hstep, hflows, gps_unit_pass_grant s _ 0 []
      { flow := 0, size := 1 / 2, remaining_size := 1 / 2 - (k : ℚ), time := 0 } []
      htune hqueue hz]
    refine ⟨hrate, hflows, k + 1, by omega, ?_, ?_⟩
    · show s.time + 1 / s.data_rate = ((k + 1 : ℕ) : ℚ)
      rw [htime, hrate]
      push_cast
      ring
    · have harith : 1 / 2 - (k : ℚ) - 1 = 1 / 2 - ((k + 1 : ℕ) : ℚ) := by push_cast; ring
      exact congrArg
        (fun r => [({ flow := 0, size := 1 / 2, remaining_size := r, time := 0 } : Packet)]) harith

theorem c2_inner_diverges (fuel : ℕ) :
    ∀ s : SimState, c2_inv s → gps_inner none fuel s = none := by
  induction fuel with
  | zero => intro s _; rfl
  | succ fuel ih =>
    intro s hs
    rw [gps_inner, if_pos (c2_inv_guard s hs)]
    exact ih (gps_inner_step none s) (c2_inv_step s hs)

/-- C2: the GPS run loop does not terminate on the valid input of a
single flow with one packet of positive real size 1/2 arriving at time
0, capacity 1: after every unit grant the head's remaining count is
`1/2 - k`, which is never exactly 0, so the completion test never
fires, the inner while loop's guard stays true forever (once the clock
hits `sys.maxsize` the state freezes), and `run` never returns however
much fuel it is given. -/
theorem c2_gps_run_diverges (fuel : ℕ) :
    gps_run fuel (mk_state [mk_packet 0 (1 / 2) 0] 1) = none := by
  cases fuel with
  | zero => rfl
  | succ fuel =>
    have hguard : outer_guard (mk_state [mk_packet 0 (1 / 2) 0] 1) = true := by
      with_unfolding_all decide
    rw [gps_run, if_pos hguard]
    have hnxt : (((enqueue_packets (mk_state [mk_packet 0 (1 / 2) 0] 1)).packet_arrivals.head?).map
        Packet.time) = none := by
      with_unfolding_all decide
    have hinv : c2_inv (enqueue_packets (mk_state [mk_packet 0 (1 / 2) 0] 1)) := by
      refine ⟨rfl, by with_unfolding_all decide, 0, by omega, by with_unfolding_all decide,
        by with_unfolding_all decide⟩
    have hiter : gps_iterate (fuel + 1) (mk_state [mk_packet 0 (1 / 2) 0] 1) = none := by
      show (gps_inner (((enqueue_packets (mk_state [mk_packet 0 (1 / 2) 0] 1)).packet_arrivals.head?).map
          Packet.time) (fuel + 1) (enqueue_packets (mk_state [mk_packet 0 (1 / 2) 0] 1))).map _ = none
      rw [hnxt, c2_inner_diverges (fuel + 1) _ hinv]
      rfl
    rw [hiter]
    rfl

/-! ### C8: clock initialization and monotonicity -/



theorem enqueue_go_head (t : ℚ) (arr : List Packet) (q : ℕ → List Packet) :
    ∀ p l, (enqueue_go t arr q).1 = p :: l → t < p.time := by
  induction arr generalizing q with
  | nil => intro p l h; exact absurd h (by simp [enqueue_go])
  | cons a rest ih =>
    intro p l h
    rw [enqueue_go] at h
    by_cases ha : a.time ≤ t
    · rw [if_pos ha] at h
      exact ih _ p l h
    · rw [if_neg ha] at h
      injection h with h1 _
      subst h1
      exact lt_of_not_le ha

theorem enqueue_go_arrivals_mem (t : ℚ) (arr : List Packet) (q : ℕ → List Packet) :
    ∀ x ∈ (enqueue_go t arr q).1, x ∈ arr := by
  induction arr generalizing q with
  | nil => intro x hx; simp [enqueue_go] at hx
  | cons a rest ih =>
    intro x hx
    rw [enqueue_go] at hx
    by_cases ha : a.time ≤ t
    · rw [if_pos ha] at hx
      exact List.mem_cons_of_mem a (ih _ x hx)
    · rw [if_neg ha] at hx
      exact hx

theorem enqueue_go_queues_mem (t : ℚ) (arr : List Packet) (q : ℕ → List Packet) :
    ∀ f, ∀ x ∈ (enqueue_go t arr q).2 f, x ∈ q f ∨ x ∈ arr := by
  induction arr generalizing q with
  | nil => intro f x hx; exact Or.inl hx
  | cons a rest ih =>
    intro f x hx
    rw [enqueue_go] at hx
    by_cases ha : a.time ≤ t
    · rw [if_pos ha] at hx
      rcases ih _ f x hx with h | h
      · by_cases hf : f = a.flow
        · subst hf
          rw [upd_same] at h
          rcases List.mem_append.mp h with h2 | h2
          · exact Or.inl h2
          · rw [List.mem_singleton] at h2
            subst h2
            exact Or.inr (List.mem_cons_self _ _)
        · rw [upd_other _ _ _ f hf] at h
          exact Or.inl h
      · exact Or.inr (List.mem_cons_of_mem a h)
    · rw [if_neg ha] at hx
      exact Or.inl hx

theorem enqueue_packets_front_ahead (s : SimState) : front_ahead (enqueue_packets s) := by
  intro p l h
  have := enqueue_go_head s.time s.packet_arrivals s.flow_queues p l h
  exact this

theorem enqueue_packets_wf (s : SimState) (hs : wf_sim s) : wf_sim (enqueue_packets s) := by
  refine ⟨hs.1, ?_, ?_⟩
  · intro p hp
    exact hs.2.1 p (enqueue_go_arrivals_mem s.time s.packet_arrivals s.flow_queues p hp)
  · intro f p hp
    rcases enqueue_go_queues_mem s.time s.packet_arrivals s.flow_queues f p hp with h | h
    · exact hs.2.2 f p h
    · exact hs.2.1 p h

theorem finish_packet_wf (s : SimState) (p : Packet) (hs : wf_sim s) :
    wf_sim (finish_packet s p) := hs

theorem idle_skip_time (s : SimState) (hf : front_ahead s) : s.time ≤ (idle_skip s).time := by
  cases harr : s.packet_arrivals with
  | nil => simp [idle_skip, harr]
  | cons p l =>
    simp only [idle_skip, harr]
    split_ifs with hall
    · exact le_of_lt (hf p l harr)
    · exact le_refl _

theorem rr_turn_props (s : SimState) (f : ℕ) (hs : wf_sim s) :
    s.time ≤ (rr_turn s f).time ∧ wf_sim (rr_turn s f) ∧
      (front_ahead s → front_ahead (rr_turn s f)) := by
  cases hq : s.flow_queues f with
  | nil =>
    have heq : rr_turn s f = s := by rw [rr_turn, hq]
    rw [heq]
    exact ⟨le_refl _, hs, fun h => h⟩
  | cons p rest =>
    have hp : 0 < p.size := hs.2.2 f p (by rw [hq]; exact List.mem_cons_self _ _)
    have heq : rr_turn s f =
        enqueue_packets (finish_packet
          { s with
            flow_queues := upd s.flow_queues f rest
            time := s.time + p.size / s.data_rate } p) := by
      rw [rr_turn, hq]
    have hwf2 : wf_sim
        { s with
          flow_queues := upd s.flow_queues f rest
          time := s.time + p.size / s.data_rate } := by
      refine ⟨hs.1, hs.2.1, ?_⟩
      intro g x hx
      have hx2 : x ∈ upd s.flow_queues f rest g := hx
      by_cases hg : g = f
      · subst hg
        rw [upd_same] at hx2
        exact hs.2.2 g x (by rw [hq]; exact List.mem_cons_of_mem _ hx2)
      · rw [upd_other _ _ _ g hg] at hx2
        exact hs.2.2 g x hx2
    refine ⟨?_, ?_, fun _ => ?_⟩
    · rw [heq, enqueue_packets_time, finish_packet_time]
      have : 0 < p.size / s.data_rate := div_pos hp hs.1
      show s.time ≤ s.time + p.size / s.data_rate
      linarith
    · rw [heq]
      exact enqueue_packets_wf _ (finish_packet_wf _ _ hwf2)
    · rw [heq]
      exact enqueue_packets_front_ahead _

theorem rr_foldl_props (fs : List ℕ) (s : SimState) (hs : wf_sim s) (hf : front_ahead s) :
    s.time ≤ (fs.foldl rr_turn s).time ∧ wf_sim (fs.foldl rr_turn s) ∧
      front_ahead (fs.foldl rr_turn s) := by
  induction fs generalizing s with
  | nil => exact ⟨le_refl _, hs, hf⟩
  | cons f fs ih =>
    rw [List.foldl_cons]
    have h1 := rr_turn_props s f hs
    have h2 := ih (rr_turn s f) h1.2.1 (h1.2.2 hf)
    exact ⟨le_trans h1.1 h2.1, h2.2.1, h2.2.2⟩

theorem rr_iterate_time_mono (s : SimState) (hs : wf_sim s) : s.time ≤ (rr_iterate s).time := by
  rw [rr_iterate, enqueue_packets_flows]
  have h1 := rr_foldl_props s.flows (enqueue_packets s) (enqueue_packets_wf s hs)
    (enqueue_packets_front_ahead s)
  have h2 := idle_skip_time _ h1.2.2
  calc s.time = (enqueue_packets s).time := (enqueue_packets_time s).symm
    _ ≤ (s.flows.foldl rr_turn (enqueue_packets s)).time := h1.1
    _ ≤ _ := h2

theorem drr_serve_props (d : DRRState) (f : ℕ) (hs : wf_sim d.sim) :
    d.sim.time ≤ (drr_serve d f).sim.time ∧ wf_sim (drr_serve d f).sim ∧
      (drr_serve d f).sim.packet_arrivals = d.sim.packet_arrivals ∧
      (drr_serve d f).sim.data_rate = d.sim.data_rate ∧
      (drr_serve d f).sim.flows = d.sim.flows := by
  induction d, f using drr_serve_induction with
  | case1 d f hqe =>
    rw [drr_serve_eq_nil d f hqe]
    exact ⟨le_refl _, hs, rfl, rfl, rfl⟩
  | case2 d f p rest hqe hle ih =>
    rw [drr_serve_eq_go d f p rest hqe hle]
    have hp : 0 < p.size := hs.2.2 f p (by rw [hqe]; exact List.mem_cons_self _ _)
    have hwf2 : wf_sim (drr_serve_step d f p rest).sim := by
      refine ⟨hs.1, hs.2.1, ?_⟩
      intro g x hx
      have hx2 : x ∈ upd d.sim.flow_queues f rest g := hx
      by_cases hg : g = f
      · subst hg
        rw [upd_same] at hx2
        exact hs.2.2 g x (by rw [hqe]; exact List.mem_cons_of_mem _ hx2)
      · rw [upd_other _ _ _ g hg] at hx2
        exact hs.2.2 g x hx2
    have ihh := ih hwf2
    have htime : (drr_serve_step d f p rest).sim.time =
        d.sim.time + p.size / d.sim.data_rate := rfl
    refine ⟨?_, ihh.2.1, ihh.2.2.1, ihh.2.2.2.1, ihh.2.2.2.2⟩
    have : 0 < p.size / d.sim.data_rate := div_pos hp hs.1
    calc d.sim.time ≤ (drr_serve_step d f p rest).sim.time := by rw [htime]; linarith
      _ ≤ _ := ihh.1
  | case3 d f p rest hqe hle =>
    rw [drr_serve_eq_stop d f p rest hqe hle]
    exact ⟨le_refl _, hs, rfl, rfl, rfl⟩

theorem drr_turn_props (d : DRRState) (f : ℕ) (hs : wf_sim d.sim) :
    d.sim.time ≤ (drr_turn d f).sim.time ∧ wf_sim (drr_turn d f).sim ∧
      (front_ahead d.sim → front_ahead (drr_turn d f).sim) := by
  rw [drr_turn]
  by_cases hq : (d.sim.flow_queues f).isEmpty
  · rw [if_pos hq]
    exact ⟨le_refl _, hs, fun h => h⟩
  · rw [if_neg hq]
    have h1 := drr_serve_props
      { d with deficit_counters := upd d.deficit_counters f (d.deficit_counters f + d.quantum) }
      f hs
    refine ⟨?_, ?_, fun _ => ?_⟩
    · rw [enqueue_packets_time]
      exact h1.1
    · exact enqueue_packets_wf _ h1.2.1
    · exact enqueue_packets_front_ahead _

theorem drr_foldl_props (fs : List ℕ) (d : DRRState) (hs : wf_sim d.sim)
    (hf : front_ahead d.sim) :
    d.sim.time ≤ (fs.foldl drr_turn d).sim.time ∧ wf_sim (fs.foldl drr_turn d).sim ∧
      front_ahead (fs.foldl drr_turn d).sim := by
  induction fs generalizing d with
  | nil => exact ⟨le_refl _, hs, hf⟩
  | cons f fs ih =>
    rw [List.foldl_cons]
    have h1 := drr_turn_props d f hs
    have h2 := ih (drr_turn d f) h1.2.1 (h1.2.2 hf)
    exact ⟨le_trans h1.1 h2.1, h2.2.1, h2.2.2⟩

theorem drr_iterate_time_mono (d : DRRState) (hs : wf_sim d.sim) :
    d.sim.time ≤ (drr_iterate d).sim.time := by
  rw [drr_iterate]
  have h1 := drr_foldl_props (enqueue_packets d.sim).flows
    { d with sim := enqueue_packets d.sim } (enqueue_packets_wf _ hs)
    (enqueue_packets_front_ahead _)
  have h2 := idle_skip_time _ h1.2.2
  calc d.sim.time = (enqueue_packets d.sim).time := (enqueue_packets_time _).symm
    _ ≤ _ := h1.1
    _ ≤ _ := h2

theorem gps_unit_pass_time_mono (fs : List ℕ) (s : SimState) (tu : ℚ)
    (hrate : 0 < s.data_rate) : s.time ≤ (gps_unit_pass s tu fs).time := by
  induction fs generalizing s tu with
  | nil => exact le_refl _
  | cons f fs ih =>
    by_cases htu : tu = 0
    · subst htu
      rw [gps_unit_pass_break]
    · cases hq : s.flow_queues f with
      | nil =>
        rw [gps_unit_pass_skip_empty s tu f fs htu hq]
        exact ih s tu hrate
      | cons p q =>
        have hstep : (0 : ℚ) < 1 / s.data_rate := by positivity
        by_cases hz : p.remaining_size - 1 = 0
        · rw [gps_unit_pass_grant_finish s tu f fs p q htu hq hz]
          have := ih (finish_packet
            { s with
              time := s.time + 1 / s.data_rate
              flow_queues := upd s.flow_queues f q }
            { p with remaining_size := p.remaining_size - 1 }) (tu - 1 / s.data_rate) hrate
          rw [finish_packet_time] at this
          calc s.time ≤ s.time + 1 / s.data_rate := by linarith
            _ ≤ _ := this
        · rw [gps_unit_pass_grant s tu f fs p q htu hq hz]
          have := ih
            { s with
              time := s.time + 1 / s.data_rate
              flow_queues :=
                upd s.flow_queues f ({ p with remaining_size := p.remaining_size - 1 } :: q) }
            (tu - 1 / s.data_rate) hrate
          calc s.time ≤ s.time + 1 / s.data_rate := by linarith
            _ ≤ _ := this

theorem gps_bulk_flow_time (skip : ℚ) (s : SimState) (f : ℕ) :
    (gps_bulk_flow skip s f).time = s.time := by
  rw [gps_bulk_flow]
  cases hq : s.flow_queues f with
  | nil => rfl
  | cons p q =>
    by_cases hz : p.remaining_size - skip = 0
    · simp only [hz, if_pos]
      rfl
    · simp only [hz, if_neg, if_false]

theorem gps_bulk_foldl_time (skip : ℚ) (fs : List ℕ) (s : SimState) :
    (fs.foldl (gps_bulk_flow skip) s).time = s.time := by
  induction fs generalizing s with
  | nil => rfl
  | cons f fs ih => rw [List.foldl_cons, ih, gps_bulk_flow_time]

theorem skippable_rounds_nonneg (nxt : Option ℚ) (s : SimState)
    (htun : 0 ≤ time_until_next_packet nxt s) : 0 ≤ skippable_rounds nxt s := by
  rw [skippable_rounds]
  refine le_min ?_ (skippable_rounds_until_nonneg s)
  rw [fully_skippable_rounds]
  have hq : (0 : ℚ) ≤ time_until_next_packet nxt s / (number_of_active_flows s : ℚ) :=
    div_nonneg htun (Nat.cast_nonneg _)
  exact_mod_cast Int.floor_nonneg.mpr hq

theorem gps_inner_step_time_mono (nxt : Option ℚ) (s : SimState) (hrate : 0 < s.data_rate)
    (htun : 0 ≤ time_until_next_packet nxt s) : s.time ≤ (gps_inner_step nxt s).time := by
  by_cases hskip : skippable_rounds nxt s = 0
  · have heq : gps_inner_step nxt s = gps_unit_pass s (time_until_next_packet nxt s) s.flows := by
      rw [gps_inner_step]
      exact if_pos hskip
    rw [heq]
    exact gps_unit_pass_time_mono s.flows s _ hrate
  · have heq : gps_inner_step nxt s =
        s.flows.foldl (gps_bulk_flow (skippable_rounds nxt s))
          { s with
            time :=
              s.time +
                skippable_rounds nxt s / s.data_rate * (number_of_active_flows s : ℚ) } := by
      rw [gps_inner_step]
      exact if_neg hskip
    rw [heq, gps_bulk_foldl_time]
    have h1 := skippable_rounds_nonneg nxt s htun
    have h2 : 0 ≤ skippable_rounds nxt s / s.data_rate * (number_of_active_flows s : ℚ) :=
      mul_nonneg (div_nonneg h1 (le_of_lt hrate)) (Nat.cast_nonneg _)
    show s.time ≤ s.time + _
    linarith

theorem gps_idle_time_mono (nxt : Option ℚ) (s : SimState) : s.time ≤ (gps_idle nxt s).time := by
  cases nxt with
  | none => exact le_refl _
  | some t =>
    simp only [gps_idle]
    by_cases h : s.time < t
    · rw [if_pos h]
      exact le_of_lt h
    · rw [if_neg h]

/-- C8 counterexample: a single flow with one packet of size
`sys.maxsize + 2` arriving at t = 1/2, capacity 1 — a valid input
(positive size, positive capacity). The bulk skip lands the clock on
`sys.maxsize - 1/2`, the following unit grant pushes it past
`sys.maxsize`, so `time_until_next_packet` (computed against the
`sys.maxsize` stand-in for an empty feed) turns negative, the next
"skip" is the negative `floor(-1/2) = -1`, and the bulk branch moves
the clock backwards — with the inner-loop guard still true. -/
theorem c8_counterexample :
    let sa := enqueue_packets (mk_state [mk_packet 0 (sys_maxsize + 2) (1 / 2)] 1)
    let sc := gps_inner_step none (gps_inner_step none sa)
    ((sa.packet_arrivals.head?).map Packet.time = none) ∧
    (0 : ℚ) < (mk_packet 0 (sys_maxsize + 2) (1 / 2)).size ∧
    gps_inner_guard none sc = true ∧
    (gps_inner_step none sc).time < sc.time := by
  with_unfolding_all decide

/-- C8 amended: all three schedulers start the clock at the first
arrival's timestamp. For valid inputs (positive sizes, positive
capacity), an RR or DRR outer iteration never decreases the clock, and
neither do GPS's enqueue, idle-skip, or any inner step at which
`time_until_next_packet` is non-negative — which is automatic whenever
a next arrival with a non-zero timestamp is pending, but can fail once
the clock exceeds the `sys.maxsize` stand-in used when the feed is
empty, where a step can move the clock backwards (see the
counterexample). -/
theorem c8_clock_monotone :
    (∀ (arr : List Packet) (rate quantum : ℚ) (p : Packet) (l : List Packet), arr = p :: l →
      (mk_state arr rate).time = p.time ∧ (mk_drr_state arr rate quantum).sim.time = p.time) ∧
    (∀ s : SimState, wf_sim s → s.time ≤ (rr_iterate s).time) ∧
    (∀ d : DRRState, wf_sim d.sim → d.sim.time ≤ (drr_iterate d).sim.time) ∧
    (∀ s : SimState, (enqueue_packets s).time = s.time) ∧
    (∀ (nxt : Option ℚ) (s : SimState), 0 < s.data_rate →
      0 ≤ time_until_next_packet nxt s → s.time ≤ (gps_inner_step nxt s).time) ∧
    (∀ (nxt : Option ℚ) (s : SimState), s.time ≤ (gps_idle nxt s).time) := by
  refine ⟨?_, rr_iterate_time_mono, drr_iterate_time_mono, enqueue_packets_time,
    gps_inner_step_time_mono, gps_idle_time_mono⟩
  intro arr rate quantum p l harr
  subst harr
  exact ⟨rfl, rfl⟩

theorem c8_witness :
    wf_sim (mk_state [mk_packet 0 100 0, mk_packet 1 50 3] 1) ∧
    (mk_state [mk_packet 0 100 0, mk_packet 1 50 3] 1).time ≤
      (rr_iterate (mk_state [mk_packet 0 100 0, mk_packet 1 50 3] 1)).time ∧
    [mk_packet 0 100 0, mk_packet 1 50 3] = mk_packet 0 100 0 :: [mk_packet 1 50 3] ∧
    (mk_state [mk_packet 0 100 0, mk_packet 1 50 3] 1).time = (mk_packet 0 100 0).time :=
  ⟨⟨by norm_num [mk_state], by with_unfolding_all decide,
      fun f p hp => absurd hp (List.not_mem_nil p)⟩,
    c8_clock_monotone.2.1 (mk_state [mk_packet 0 100 0, mk_packet 1 50 3] 1)
      ⟨by norm_num [mk_state], by with_unfolding_all decide,
        fun f p hp => absurd hp (List.not_mem_nil p)⟩,
    rfl,
    (c8_clock_monotone.1 [mk_packet 0 100 0, mk_packet 1 50 3] 1 500 (mk_packet 0 100 0)
      [mk_packet 1 50 3] rfl).1⟩

/-! ### C6: conservation of bits and packet counts -/



theorem flows_of_go_sub (l : List Packet) : ∀ acc : List ℕ, ∀ f ∈ acc, f ∈ flows_of_go acc l := by
  induction l with
  | nil => intro acc f hf; exact hf
  | cons a rest ih =>
    intro acc f hf
    rw [flows_of_go]
    by_cases ha : a.flow ∈ acc
    · rw [if_pos ha]
      exact ih acc f hf
    · rw [if_neg ha]
      exact ih _ f (List.mem_append_left _ hf)

theorem flows_of_go_mem_of (l : List Packet) :
    ∀ acc : List ℕ, ∀ p ∈ l, p.flow ∈ flows_of_go acc l := by
  induction l with
  | nil => intro acc p hp; exact absurd hp (List.not_mem_nil p)
  | cons a rest ih =>
    intro acc p hp
    rw [flows_of_go]
    rcases List.mem_cons.mp hp with h | h
    · subst h
      by_cases ha : p.flow ∈ acc
      · rw [if_pos ha]
        exact flows_of_go_sub rest acc p.flow ha
      · rw [if_neg ha]
        exact flows_of_go_sub rest _ p.flow (List.mem_append_right _ (List.mem_singleton.mpr rfl))
    · by_cases ha : a.flow ∈ acc
      · rw [if_pos ha]
        exact ih acc p h
      · rw [if_neg ha]
        exact ih _ p h

theorem flows_of_go_nodup (l : List Packet) :
    ∀ acc : List ℕ, acc.Nodup → (flows_of_go acc l).Nodup := by
  induction l with
  | nil => intro acc h; exact h
  | cons a rest ih =>
    intro acc h
    rw [flows_of_go]
    by_cases ha : a.flow ∈ acc
    · rw [if_pos ha]
      exact ih acc h
    · rw [if_neg ha]
      refine ih _ ?_
      simp [List.nodup_append, h, ha]

theorem flows_of_nodup (arr : List Packet) : (flows_of arr).Nodup :=
  flows_of_go_nodup arr [] List.nodup_nil

theorem flows_of_mem (arr : List Packet) (p : Packet) (hp : p ∈ arr) : p.flow ∈ flows_of arr :=
  flows_of_go_mem_of arr [] p hp

/-- Updating a map at a key occurring once in a duplicate-free list
shifts the mapped sum by the difference. -/
theorem map_sum_upd (fs : List ℕ) (hnd : fs.Nodup) (f : ℕ) (hf : f ∈ fs) (m : ℕ → ℚ) (v : ℚ) :
    (fs.map (upd m f v)).sum = (fs.map m).sum + v - m f := by
  induction fs with
  | nil => exact absurd hf (List.not_mem_nil f)
  | cons g gs ih =>
    have hnd2 := List.nodup_cons.mp hnd
    rw [List.map_cons, List.map_cons, List.sum_cons, List.sum_cons]
    rcases List.mem_cons.mp hf with h | h
    · subst h
      rw [upd_same]
      have hcong : gs.map (upd m f v) = gs.map m := by
        apply List.map_congr_left
        intro g hg
        exact upd_other _ _ _ g (fun he => hnd2.1 (he ▸ hg))
      rw [hcong]
      ring
    · have hgf : g ≠ f := fun he => hnd2.1 (he ▸ h)
      rw [upd_other _ _ _ g hgf, ih hnd2.2 h]
      ring

theorem outer_guard_false (s : SimState) (h : outer_guard s = false) :
    s.packet_arrivals = [] ∧ ∀ f ∈ s.flows, s.flow_queues f = [] := by
  rw [outer_guard] at h
  simp only [Bool.or_eq_false_iff, Bool.not_eq_false', List.any_eq_false,
    Bool.not_eq_true, List.isEmpty_iff] at h
  refine ⟨h.1, fun f hf => ?_⟩
  exact h.2 f hf

theorem flow_count_pos_mem (arr : List Packet) (f : ℕ) (h : flow_count arr f ≠ 0) :
    f ∈ flows_of arr := by
  rw [flow_count] at h
  rcases List.exists_mem_of_length_pos (Nat.pos_of_ne_zero h) with ⟨p, hp⟩
  have hmem := List.mem_filter.mp hp
  have hpf : p.flow = f := by
    have := hmem.2
    simpa using this
  exact hpf ▸ flows_of_mem arr p hmem.1

theorem size_total_cons (p : Packet) (l : List Packet) :
    size_total (p :: l) = p.size + size_total l := by
  simp [size_total]

theorem flow_count_cons (a : Packet) (l : List Packet) (f : ℕ) :
    flow_count (a :: l) f = flow_count l f + (if a.flow = f then 1 else 0) := by
  rw [flow_count, flow_count, List.filter_cons]
  by_cases h : a.flow = f
  · simp [h]
  · simp [h]

/-- States agreeing on everything but the clock have the same conserved
quantities and invariant. -/
theorem metrics_congr (s s' : SimState)
    (h1 : s'.packet_arrivals = s.packet_arrivals) (h2 : s'.flows = s.flows)
    (h3 : s'.flow_queues = s.flow_queues) (h4 : s'.sent_bits_per_flow = s.sent_bits_per_flow)
    (h5 : s'.packet_delays_per_flow = s.packet_delays_per_flow) :
    qty s' = qty s ∧ (∀ f, cnt s' f = cnt s f) ∧ (inv_sim s → inv_sim s') := by
  refine ⟨?_, ?_, ?_⟩ <;>
    simp [qty, cnt, sent_total, queued_total, inv_sim, h1, h2, h3, h4, h5]

theorem idle_skip_frame (s : SimState) :
    (idle_skip s).packet_arrivals = s.packet_arrivals ∧ (idle_skip s).flows = s.flows ∧
    (idle_skip s).flow_queues = s.flow_queues ∧
    (idle_skip s).sent_bits_per_flow = s.sent_bits_per_flow ∧
    (idle_skip s).packet_delays_per_flow = s.packet_delays_per_flow ∧
    (idle_skip s).data_rate = s.data_rate := by
  cases harr : s.packet_arrivals with
  | nil => simp [idle_skip, harr]
  | cons p l =>
    simp only [idle_skip, harr]
    split_ifs with hall
    · exact ⟨rfl, rfl, rfl, rfl, rfl, rfl⟩
    · exact ⟨harr, rfl, rfl, rfl, rfl, rfl⟩

theorem enqueue_go_flows_frame (t : ℚ) (arr : List Packet) (q : ℕ → List Packet)
    (fs : List ℕ) (harr : ∀ p ∈ arr, p.flow ∈ fs) :
    ∀ f, f ∉ fs → (enqueue_go t arr q).2 f = q f := by
  induction arr generalizing q with
  | nil => intro f _; rfl
  | cons a rest ih =>
    intro f hf
    rw [enqueue_go]
    by_cases ha : a.time ≤ t
    · rw [if_pos ha]
      rw [ih _ (fun p hp => harr p (List.mem_cons_of_mem a hp)) f hf]
      exact upd_other _ _ _ f (fun he => hf (he ▸ harr a (List.mem_cons_self a rest)))
    · rw [if_neg ha]

theorem enqueue_go_queues_flow (t : ℚ) (arr : List Packet) (q : ℕ → List Packet)
    (hq : ∀ f, ∀ p ∈ q f, p.flow = f) :
    ∀ f, ∀ p ∈ (enqueue_go t arr q).2 f, p.flow = f := by
  induction arr generalizing q with
  | nil => exact hq
  | cons a rest ih =>
    intro f p hp
    rw [enqueue_go] at hp
    by_cases ha : a.time ≤ t
    · rw [if_pos ha] at hp
      refine ih _ ?_ f p hp
      intro g x hx
      by_cases hg : g = a.flow
      · subst hg
        rw [upd_same] at hx
        rcases List.mem_append.mp hx with h | h
        · exact hq a.flow x h
        · rw [List.mem_singleton] at h
          subst h
          rfl
      · rw [upd_other _ _ _ g hg] at hx
        exact hq g x hx
    · rw [if_neg ha] at hp
      exact hq f p hp

theorem enqueue_go_sum (t : ℚ) (arr : List Packet) (q : ℕ → List Packet) (fs : List ℕ)
    (hnd : fs.Nodup) (harr : ∀ p ∈ arr, p.flow ∈ fs) :
    (fs.map (fun f => size_total ((enqueue_go t arr q).2 f))).sum +
        size_total (enqueue_go t arr q).1 =
      (fs.map (fun f => size_total (q f))).sum + size_total arr := by
  induction arr generalizing q with
  | nil => rfl
  | cons a rest ih =>
    rw [enqueue_go]
    by_cases ha : a.time ≤ t
    · rw [if_pos ha]
      rw [ih _ (fun p hp => harr p (List.mem_cons_of_mem a hp))]
      have hcong : fs.map (fun f => size_total (upd q a.flow (q a.flow ++ [a]) f)) =
          fs.map (upd (fun f => size_total (q f)) a.flow (size_total (q a.flow) + a.size)) := by
        apply List.map_congr_left
        intro g _
        by_cases hg : g = a.flow
        · subst hg
          rw [upd_same, upd_same]
          simp [size_total]
        · rw [upd_other _ _ _ g hg, upd_other _ _ _ g hg]
      rw [hcong, map_sum_upd fs hnd a.flow (harr a (List.mem_cons_self a rest)), size_total_cons]
      ring
    · rw [if_neg ha]

theorem enqueue_go_cnt (t : ℚ) (arr : List Packet) (q : ℕ → List Packet) (f : ℕ) :
    ((enqueue_go t arr q).2 f).length + flow_count (enqueue_go t arr q).1 f =
      (q f).length + flow_count arr f := by
  induction arr generalizing q with
  | nil => rfl
  | cons a rest ih =>
    rw [enqueue_go]
    by_cases ha : a.time ≤ t
    · rw [if_pos ha]
      rw [ih]
      rw [flow_count_cons]
      by_cases hf : a.flow = f
      · subst hf
        rw [upd_same]
        simp only [List.length_append, List.length_singleton, eq_self_iff_true, if_true]
        omega
      · rw [upd_other _ _ _ f (fun he => hf he.symm)]
        simp only [hf, if_false]
        omega
    · rw [if_neg ha]

theorem enqueue_packets_qty (s : SimState) (hinv : inv_sim s) :
    qty (enqueue_packets s) = qty s := by
  have h := enqueue_go_sum s.time s.packet_arrivals s.flow_queues s.flows hinv.1 hinv.2.1
  show (s.flows.map s.sent_bits_per_flow).sum +
      (s.flows.map
        (fun f => size_total ((enqueue_go s.time s.packet_arrivals s.flow_queues).2 f))).sum +
      size_total (enqueue_go s.time s.packet_arrivals s.flow_queues).1 =
    qty s
  rw [qty, sent_total, queued_total]
  linarith [h]

theorem enqueue_packets_cnt (s : SimState) (f : ℕ) : cnt (enqueue_packets s) f = cnt s f := by
  have h := enqueue_go_cnt s.time s.packet_arrivals s.flow_queues f
  show (s.packet_delays_per_flow f).length +
      ((enqueue_go s.time s.packet_arrivals s.flow_queues).2 f).length +
      flow_count (enqueue_go s.time s.packet_arrivals s.flow_queues).1 f = cnt s f
  rw [cnt]
  omega

theorem enqueue_packets_inv (s : SimState) (hinv : inv_sim s) : inv_sim (enqueue_packets s) := by
  refine ⟨hinv.1, ?_, ?_, ?_⟩
  · intro p hp
    exact hinv.2.1 p (enqueue_go_arrivals_mem s.time s.packet_arrivals s.flow_queues p hp)
  · exact enqueue_go_queues_flow s.time s.packet_arrivals s.flow_queues hinv.2.2.1
  · intro f hf
    refine ⟨?_, (hinv.2.2.2 f hf).2.1, (hinv.2.2.2 f hf).2.2⟩
    show (enqueue_go s.time s.packet_arrivals s.flow_queues).2 f = []
    rw [enqueue_go_flows_frame s.time s.packet_arrivals s.flow_queues s.flows hinv.2.1 f hf]
    exact (hinv.2.2.2 f hf).1

/-- Popping a queue head and recording it finished (with any clock
value, and with the recorded packet allowed to differ from the queued
one in its remaining count) conserves `qty`, every `cnt`, and the
structural invariant. -/
theorem pop_finish_metrics (s : SimState) (f : ℕ) (p : Packet) (rest : List Packet)
    (p1 : Packet) (t : ℚ) (hinv : inv_sim s) (hq : s.flow_queues f = p :: rest)
    (hfl : p1.flow = p.flow) (hsz : p1.size = p.size) :
    qty (finish_packet { s with flow_queues := upd s.flow_queues f rest, time := t } p1) = qty s ∧
    (∀ g, cnt (finish_packet { s with flow_queues := upd s.flow_queues f rest, time := t } p1) g =
      cnt s g) ∧
    inv_sim (finish_packet { s with flow_queues := upd s.flow_queues f rest, time := t } p1) := by
  have hpf : p.flow = f := hinv.2.2.1 f p (by rw [hq]; exact List.mem_cons_self _ _)
  have hf : f ∈ s.flows := by
    by_contra hf
    have := (hinv.2.2.2 f hf).1
    rw [hq] at this
    exact List.cons_ne_nil p rest this
  have hp1f : p1.flow = f := hfl.trans hpf
  refine ⟨?_, ?_, ?_⟩
  · show (s.flows.map (upd s.sent_bits_per_flow p1.flow (s.sent_bits_per_flow p1.flow + p1.size))).sum +
        (s.flows.map (fun g => size_total (upd s.flow_queues f rest g))).sum +
        size_total s.packet_arrivals = qty s
    rw [hp1f, map_sum_upd s.flows hinv.1 f hf]
    have hcong : s.flows.map (fun g => size_total (upd s.flow_queues f rest g)) =
        s.flows.map (upd (fun g => size_total (s.flow_queues g)) f (size_total rest)) := by
      apply List.map_congr_left
      intro g _
      by_cases hg : g = f
      · subst hg
        rw [upd_same, upd_same]
      · rw [upd_other _ _ _ g hg, upd_other _ _ _ g hg]
    rw [hcong, map_sum_upd s.flows hinv.1 f hf, qty, sent_total, queued_total, hq,
      size_total_cons, hsz]
    ring
  · intro g
    by_cases hg : g = f
    · subst hg
      show (upd s.packet_delays_per_flow p1.flow _ g).length + (upd s.flow_queues g rest g).length +
          flow_count s.packet_arrivals g = cnt s g
      rw [hp1f, upd_same, upd_same, cnt, hq]
      simp
      omega
    · show (upd s.packet_delays_per_flow p1.flow _ g).length + (upd s.flow_queues f rest g).length +
          flow_count s.packet_arrivals g = cnt s g
      rw [upd_other _ _ _ g (hp1f ▸ hg), upd_other _ _ _ g hg, cnt]
  · refine ⟨hinv.1, hinv.2.1, ?_, ?_⟩
    · intro g x hx
      have hx2 : x ∈ upd s.flow_queues f rest g := hx
      by_cases hg : g = f
      · subst hg
        rw [upd_same] at hx2
        exact hinv.2.2.1 g x (by rw [hq]; exact List.mem_cons_of_mem _ hx2)
      · rw [upd_other _ _ _ g hg] at hx2
        exact hinv.2.2.1 g x hx2
    · intro g hg
      have hgf : g ≠ f := fun he => hg (he ▸ hf)
      refine ⟨?_, ?_, ?_⟩
      · show upd s.flow_queues f rest g = []
        rw [upd_other _ _ _ g hgf]
        exact (hinv.2.2.2 g hg).1
      · show upd s.sent_bits_per_flow p1.flow _ g = 0
        rw [upd_other _ _ _ g (hp1f ▸ hgf)]
        exact (hinv.2.2.2 g hg).2.1
      · show upd s.packet_delays_per_flow p1.flow _ g = []
        rw [upd_other _ _ _ g (hp1f ▸ hgf)]
        exact (hinv.2.2.2 g hg).2.2

/-- Replacing a queue head by a packet of the same flow and size (GPS's
in-place `remaining_size` decrement) conserves everything. -/
theorem head_replace_metrics (s : SimState) (f : ℕ) (p : Packet) (rest : List Packet)
    (p1 : Packet) (t : ℚ) (hinv : inv_sim s) (hq : s.flow_queues f = p :: rest)
    (hfl : p1.flow = p.flow) (hsz : p1.size = p.size) :
    qty { s with flow_queues := upd s.flow_queues f (p1 :: rest), time := t } = qty s ∧
    (∀ g, cnt { s with flow_queues := upd s.flow_queues f (p1 :: rest), time := t } g = cnt s g) ∧
    inv_sim { s with flow_queues := upd s.flow_queues f (p1 :: rest), time := t } := by
  have hpf : p.flow = f := hinv.2.2.1 f p (by rw [hq]; exact List.mem_cons_self _ _)
  have hf : f ∈ s.flows := by
    by_contra hf
    have := (hinv.2.2.2 f hf).1
    rw [hq] at this
    exact List.cons_ne_nil p rest this
  refine ⟨?_, ?_, ?_⟩
  · show sent_total s +
        (s.flows.map (fun g => size_total (upd s.flow_queues f (p1 :: rest) g))).sum +
        size_total s.packet_arrivals = qty s
    have hcong : s.flows.map (fun g => size_total (upd s.flow_queues f (p1 :: rest) g)) =
        s.flows.map (upd (fun g => size_total (s.flow_queues g)) f (size_total (p1 :: rest))) := by
      apply List.map_congr_left
      intro g _
      by_cases hg : g = f
      · subst hg
        rw [upd_same, upd_same]
      · rw [upd_other _ _ _ g hg, upd_other _ _ _ g hg]
    rw [hcong, map_sum_upd s.flows hinv.1 f hf, qty, sent_total, queued_total, hq,
      size_total_cons, size_total_cons, hsz]
    ring
  · intro g
    by_cases hg : g = f
    · subst hg
      show (s.packet_delays_per_flow g).length + (upd s.flow_queues g (p1 :: rest) g).length +
          flow_count s.packet_arrivals g = cnt s g
      rw [upd_same, cnt, hq]
      simp
    · show (s.packet_delays_per_flow g).length + (upd s.flow_queues f (p1 :: rest) g).length +
          flow_count s.packet_arrivals g = cnt s g
      rw [upd_other _ _ _ g hg, cnt]
  · refine ⟨hinv.1, hinv.2.1, ?_, ?_⟩
    · intro g x hx
      have hx2 : x ∈ upd s.flow_queues f (p1 :: rest) g := hx
      by_cases hg : g = f
      · subst hg
        rw [upd_same] at hx2
        rcases List.mem_cons.mp hx2 with h | h
        · subst h
          exact hfl.trans hpf
        · exact hinv.2.2.1 g x (by rw [hq]; exact List.mem_cons_of_mem _ h)
      · rw [upd_other _ _ _ g hg] at hx2
        exact hinv.2.2.1 g x hx2
    · intro g hg
      have hgf : g ≠ f := fun he => hg (he ▸ hf)
      refine ⟨?_, (hinv.2.2.2 g hg).2.1, (hinv.2.2.2 g hg).2.2⟩
      show upd s.flow_queues f (p1 :: rest) g = []
      rw [upd_other _ _ _ g hgf]
      exact (hinv.2.2.2 g hg).1

theorem rr_turn_metrics (s : SimState) (f : ℕ) (hinv : inv_sim s) :
    qty (rr_turn s f) = qty s ∧ (∀ g, cnt (rr_turn s f) g = cnt s g) ∧ inv_sim (rr_turn s f) ∧
      (rr_turn s f).flows = s.flows := by
  cases hq : s.flow_queues f with
  | nil =>
    have heq : rr_turn s f = s := by rw [rr_turn, hq]
    rw [heq]
    exact ⟨rfl, fun g => rfl, hinv, rfl⟩
  | cons p rest =>
    have heq : rr_turn s f = enqueue_packets (finish_packet
        { s with
          flow_queues := upd s.flow_queues f rest
          time := s.time + p.size / s.data_rate } p) := by
      rw [rr_turn, hq]
    have base := pop_finish_metrics s f p rest p (s.time + p.size / s.data_rate) hinv hq rfl rfl
    rw [heq]
    exact ⟨(enqueue_packets_qty _ base.2.2).trans base.1,
      fun g => (enqueue_packets_cnt _ g).trans (base.2.1 g),
      enqueue_packets_inv _ base.2.2, rfl⟩

theorem rr_foldl_metrics (fs : List ℕ) (s : SimState) (hinv : inv_sim s) :
    qty (fs.foldl rr_turn s) = qty s ∧ (∀ g, cnt (fs.foldl rr_turn s) g = cnt s g) ∧
      inv_sim (fs.foldl rr_turn s) ∧ (fs.foldl rr_turn s).flows = s.flows := by
  induction fs generalizing s with
  | nil => exact ⟨rfl, fun g => rfl, hinv, rfl⟩
  | cons f fs ih =>
    rw [List.foldl_cons]
    have h1 := rr_turn_metrics s f hinv
    have h2 := ih (rr_turn s f) h1.2.2.1
    exact ⟨h2.1.trans h1.1, fun g => (h2.2.1 g).trans (h1.2.1 g), h2.2.2.1,
      h2.2.2.2.trans h1.2.2.2⟩

theorem rr_iterate_metrics (s : SimState) (hinv : inv_sim s) :
    qty (rr_iterate s) = qty s ∧ (∀ g, cnt (rr_iterate s) g = cnt s g) ∧
      inv_sim (rr_iterate s) := by
  rw [rr_iterate, enqueue_packets_flows]
  have henv : inv_sim (enqueue_packets s) := enqueue_packets_inv s hinv
  have hfold := rr_foldl_metrics s.flows (enqueue_packets s) henv
  have hframe := idle_skip_frame (s.flows.foldl rr_turn (enqueue_packets s))
  have hcongr := metrics_congr _ _ hframe.1 hframe.2.1 hframe.2.2.1 hframe.2.2.2.1
    hframe.2.2.2.2.1
  refine ⟨?_, ?_, hcongr.2.2 hfold.2.2.1⟩
  · rw [hcongr.1, hfold.1, enqueue_packets_qty s hinv]
  · intro g
    rw [hcongr.2.1 g, hfold.2.1 g, enqueue_packets_cnt s g]

theorem rr_run_metrics (fuel : ℕ) :
    ∀ s S, inv_sim s → rr_run fuel s = some S →
      qty S = qty s ∧ (∀ g, cnt S g = cnt s g) ∧ inv_sim S ∧ outer_guard S = false := by
  induction fuel with
  | zero => intro s S _ h; exact absurd h (by simp [rr_run])
  | succ fuel ih =>
    intro s S hinv h
    rw [rr_run] at h
    by_cases hg : outer_guard s = true
    · rw [if_pos hg] at h
      have hit := rr_iterate_metrics s hinv
      have hrec := ih (rr_iterate s) S hit.2.2 h
      exact ⟨hrec.1.trans hit.1, fun g => (hrec.2.1 g).trans (hit.2.1 g), hrec.2.2⟩
    · rw [if_neg hg] at h
      injection h with h2
      subst h2
      exact ⟨rfl, fun g => rfl, hinv, by simpa using hg⟩

theorem mk_state_inv (arr : List Packet) (rate : ℚ) : inv_sim (mk_state arr rate) :=
  ⟨flows_of_nodup arr, fun p hp => flows_of_mem arr p hp,
    fun f p hp => absurd hp (List.not_mem_nil p), fun f _ => ⟨rfl, rfl, rfl⟩⟩

theorem mk_state_qty (arr : List Packet) (rate : ℚ) : qty (mk_state arr rate) = size_total arr := by
  show sent_total (mk_state arr rate) + queued_total (mk_state arr rate) + size_total arr =
    size_total arr
  have h1 : sent_total (mk_state arr rate) = 0 := by
    rw [sent_total]
    apply List.sum_eq_zero
    intro x hx
    rcases List.mem_map.mp hx with ⟨f, _, hfx⟩
    exact hfx.symm
  have h2 : queued_total (mk_state arr rate) = 0 := by
    rw [queued_total]
    apply List.sum_eq_zero
    intro x hx
    rcases List.mem_map.mp hx with ⟨f, _, hfx⟩
    exact hfx.symm
  rw [h1, h2]
  ring

theorem mk_state_cnt (arr : List Packet) (rate : ℚ) (f : ℕ) :
    cnt (mk_state arr rate) f = flow_count arr f := by
  show (0 : ℕ) + 0 + flow_count arr f = flow_count arr f
  omega

theorem final_metrics (S : SimState) (hinv : inv_sim S) (hg : outer_guard S = false) :
    qty S = sent_total S ∧ ∀ f, cnt S f = (S.packet_delays_per_flow f).length := by
  obtain ⟨harr, hqs⟩ := outer_guard_false S hg
  constructor
  · rw [qty, harr]
    have hqt : queued_total S = 0 := by
      rw [queued_total]
      apply List.sum_eq_zero
      intro x hx
      rcases List.mem_map.mp hx with ⟨f, hf, hfx⟩
      rw [← hfx, hqs f hf]
      rfl
    rw [hqt]
    show sent_total S + 0 + size_total [] = sent_total S
    rw [size_total]
    simp
  · intro f
    rw [cnt, harr]
    have hqf : S.flow_queues f = [] := by
      by_cases hf : f ∈ S.flows
      · exact hqs f hf
      · exact (hinv.2.2.2 f hf).1
    rw [hqf]
    show (S.packet_delays_per_flow f).length + 0 + flow_count [] f = _
    rw [flow_count]
    simp

theorem drr_serve_metrics (d : DRRState) (f : ℕ) (hinv : inv_sim d.sim) :
    qty (drr_serve d f).sim = qty d.sim ∧ (∀ g, cnt (drr_serve d f).sim g = cnt d.sim g) ∧
      inv_sim (drr_serve d f).sim ∧ (drr_serve d f).sim.flows = d.sim.flows := by
  induction d, f using drr_serve_induction with
  | case1 d f hqe =>
    rw [drr_serve_eq_nil d f hqe]
    exact ⟨rfl, fun g => rfl, hinv, rfl⟩
  | case2 d f p rest hqe hle ih =>
    rw [drr_serve_eq_go d f p rest hqe hle]
    have base := pop_finish_metrics d.sim f p rest p (d.sim.time + p.size / d.sim.data_rate)
      hinv hqe rfl rfl
    have ihh := ih base.2.2
    exact ⟨ihh.1.trans base.1, fun g => (ihh.2.1 g).trans (base.2.1 g), ihh.2.2.1,
      ihh.2.2.2.trans rfl⟩
  | case3 d f p rest hqe hle =>
    rw [drr_serve_eq_stop d f p rest hqe hle]
    exact ⟨rfl, fun g => rfl, hinv, rfl⟩

theorem drr_turn_metrics (d : DRRState) (f : ℕ) (hinv : inv_sim d.sim) :
    qty (drr_turn d f).sim = qty d.sim ∧ (∀ g, cnt (drr_turn d f).sim g = cnt d.sim g) ∧
      inv_sim (drr_turn d f).sim ∧ (drr_turn d f).sim.flows = d.sim.flows := by
  rw [drr_turn]
  by_cases hq : (d.sim.flow_queues f).isEmpty = true
  · rw [if_pos hq]
    exact ⟨rfl, fun g => rfl, hinv, rfl⟩
  · rw [if_neg hq]
    have hserve := drr_serve_metrics
      { d with deficit_counters := upd d.deficit_counters f (d.deficit_counters f + d.quantum) }
      f hinv
    exact ⟨(enqueue_packets_qty _ hserve.2.2.1).trans hserve.1,
      fun g => (enqueue_packets_cnt _ g).trans (hserve.2.1 g),
      enqueue_packets_inv _ hserve.2.2.1,
      (enqueue_packets_flows _).trans hserve.2.2.2⟩

theorem drr_foldl_metrics (fs : List ℕ) (d : DRRState) (hinv : inv_sim d.sim) :
    qty (fs.foldl drr_turn d).sim = qty d.sim ∧
      (∀ g, cnt (fs.foldl drr_turn d).sim g = cnt d.sim g) ∧
      inv_sim (fs.foldl drr_turn d).sim ∧ (fs.foldl drr_turn d).sim.flows = d.sim.flows := by
  induction fs generalizing d with
  | nil => exact ⟨rfl, fun g => rfl, hinv, rfl⟩
  | cons f fs ih =>
    rw [List.foldl_cons]
    have h1 := drr_turn_metrics d f hinv
    have h2 := ih (drr_turn d f) h1.2.2.1
    exact ⟨h2.1.trans h1.1, fun g => (h2.2.1 g).trans (h1.2.1 g), h2.2.2.1,
      h2.2.2.2.trans h1.2.2.2⟩

theorem drr_iterate_metrics (d : DRRState) (hinv : inv_sim d.sim) :
    qty (drr_iterate d).sim = qty d.sim ∧ (∀ g, cnt (drr_iterate d).sim g = cnt d.sim g) ∧
      inv_sim (drr_iterate d).sim := by
  rw [drr_iterate]
  have henv : inv_sim (enqueue_packets d.sim) := enqueue_packets_inv d.sim hinv
  have hfold := drr_foldl_metrics (enqueue_packets d.sim).flows
    { d with sim := enqueue_packets d.sim } henv
  have hframe := idle_skip_frame
    ((enqueue_packets d.sim).flows.foldl drr_turn { d with sim := enqueue_packets d.sim }).sim
  have hcongr := metrics_congr _ _ hframe.1 hframe.2.1 hframe.2.2.1 hframe.2.2.2.1
    hframe.2.2.2.2.1
  refine ⟨?_, ?_, hcongr.2.2 hfold.2.2.1⟩
  · rw [hcongr.1, hfold.1]
    exact enqueue_packets_qty d.sim hinv
  · intro g
    rw [hcongr.2.1 g, hfold.2.1 g]
    exact enqueue_packets_cnt d.sim g

theorem drr_run_metrics (fuel : ℕ) :
    ∀ d D, inv_sim d.sim → drr_run fuel d = some D →
      qty D.sim = qty d.sim ∧ (∀ g, cnt D.sim g = cnt d.sim g) ∧ inv_sim D.sim ∧
        outer_guard D.sim = false := by
  induction fuel with
  | zero => intro d D _ h; exact absurd h (by simp [drr_run])
  | succ fuel ih =>
    intro d D hinv h
    rw [drr_run] at h
    by_cases hg : outer_guard d.sim = true
    · rw [if_pos hg] at h
      have hit := drr_iterate_metrics d hinv
      have hrec := ih (drr_iterate d) D hit.2.2 h
      exact ⟨hrec.1.trans hit.1, fun g => (hrec.2.1 g).trans (hit.2.1 g), hrec.2.2⟩
    · rw [if_neg hg] at h
      injection h with h2
      subst h2
      exact ⟨rfl, fun g => rfl, hinv, by simpa using hg⟩

theorem gps_unit_pass_metrics (fs : List ℕ) (s : SimState) (tu : ℚ) (hinv : inv_sim s) :
    qty (gps_unit_pass s tu fs) = qty s ∧ (∀ g, cnt (gps_unit_pass s tu fs) g = cnt s g) ∧
      inv_sim (gps_unit_pass s tu fs) ∧ (gps_unit_pass s tu fs).flows = s.flows := by
  induction fs generalizing s tu with
  | nil => exact ⟨rfl, fun g => rfl, hinv, rfl⟩
  | cons f fs ih =>
    by_cases htu : tu = 0
    · subst htu
      rw [gps_unit_pass_break]
      exact ⟨rfl, fun g => rfl, hinv, rfl⟩
    · cases hq : s.flow_queues f with
      | nil =>
        rw [gps_unit_pass_skip_empty s tu f fs htu hq]
        exact ih s tu hinv
      | cons p q =>
        by_cases hz : p.remaining_size - 1 = 0
        · rw [gps_unit_pass_grant_finish s tu f fs p q htu hq hz]
          have base := pop_finish_metrics s f p q { p with remaining_size := p.remaining_size - 1 }
            (s.time + 1 / s.data_rate) hinv hq rfl rfl
          have ihh := ih _ (tu - 1 / s.data_rate) base.2.2
          exact ⟨ihh.1.trans base.1, fun g => (ihh.2.1 g).trans (base.2.1 g), ihh.2.2.1,
            ihh.2.2.2.trans rfl⟩
        · rw [gps_unit_pass_grant s tu f fs p q htu hq hz]
          have base := head_replace_metrics s f p q { p with remaining_size := p.remaining_size - 1 }
            (s.time + 1 / s.data_rate) hinv hq rfl rfl
          have ihh := ih _ (tu - 1 / s.data_rate) base.2.2
          exact ⟨ihh.1.trans base.1, fun g => (ihh.2.1 g).trans (base.2.1 g), ihh.2.2.1,
            ihh.2.2.2.trans rfl⟩

theorem gps_bulk_flow_metrics (skip : ℚ) (s : SimState) (f : ℕ) (hinv : inv_sim s) :
    qty (gps_bulk_flow skip s f) = qty s ∧ (∀ g, cnt (gps_bulk_flow skip s f) g = cnt s g) ∧
      inv_sim (gps_bulk_flow skip s f) ∧ (gps_bulk_flow skip s f).flows = s.flows := by
  cases hq : s.flow_queues f with
  | nil =>
    rw [gps_bulk_flow_nil skip s f hq]
    exact ⟨rfl, fun g => rfl, hinv, rfl⟩
  | cons p q =>
    by_cases hz : p.remaining_size - skip = 0
    · have heq : gps_bulk_flow skip s f =
          finish_packet { s with flow_queues := upd s.flow_queues f q, time := s.time }
            { p with remaining_size := p.remaining_size - skip } := by
        simp only [gps_bulk_flow, hq]
        rw [if_pos hz]
      have base := pop_finish_metrics s f p q { p with remaining_size := p.remaining_size - skip }
        s.time hinv hq rfl rfl
      rw [heq]
      exact ⟨base.1, base.2.1, base.2.2, rfl⟩
    · rw [gps_bulk_flow_cons skip s f p q hq hz]
      have base := head_replace_metrics s f p q { p with remaining_size := p.remaining_size - skip }
        s.time hinv hq rfl rfl
      exact ⟨base.1, base.2.1, base.2.2, rfl⟩

theorem gps_bulk_foldl_metrics (skip : ℚ) (fs : List ℕ) (s : SimState) (hinv : inv_sim s) :
    qty (fs.foldl (gps_bulk_flow skip) s) = qty s ∧
      (∀ g, cnt (fs.foldl (gps_bulk_flow skip) s) g = cnt s g) ∧
      inv_sim (fs.foldl (gps_bulk_flow skip) s) ∧
      (fs.foldl (gps_bulk_flow skip) s).flows = s.flows := by
  induction fs generalizing s with
  | nil => exact ⟨rfl, fun g => rfl, hinv, rfl⟩
  | cons f fs ih =>
    rw [List.foldl_cons]
    have h1 := gps_bulk_flow_metrics skip s f hinv
    have h2 := ih (gps_bulk_flow skip s f) h1.2.2.1
    exact ⟨h2.1.trans h1.1, fun g => (h2.2.1 g).trans (h1.2.1 g), h2.2.2.1,
      h2.2.2.2.trans h1.2.2.2⟩

theorem gps_inner_step_metrics (nxt : Option ℚ) (s : SimState) (hinv : inv_sim s) :
    qty (gps_inner_step nxt s) = qty s ∧ (∀ g, cnt (gps_inner_step nxt s) g = cnt s g) ∧
      inv_sim (gps_inner_step nxt s) := by
  by_cases hskip : skippable_rounds nxt s = 0
  · have heq : gps_inner_step nxt s = gps_unit_pass s (time_until_next_packet nxt s) s.flows := by
      rw [gps_inner_step]
      exact if_pos hskip
    rw [heq]
    have h := gps_unit_pass_metrics s.flows s (time_until_next_packet nxt s) hinv
    exact ⟨h.1, h.2.1, h.2.2.1⟩
  · have heq : gps_inner_step nxt s =
        s.flows.foldl (gps_bulk_flow (skippable_rounds nxt s))
          { s with
            time :=
              s.time +
                skippable_rounds nxt s / s.data_rate * (number_of_active_flows s : ℚ) } := by
      rw [gps_inner_step]
      exact if_neg hskip
    have hcongr := metrics_congr s
      { s with
        time :=
          s.time + skippable_rounds nxt s / s.data_rate * (number_of_active_flows s : ℚ) }
      rfl rfl rfl rfl rfl
    have hfold := gps_bulk_foldl_metrics (skippable_rounds nxt s) s.flows _
      (hcongr.2.2 hinv)
    rw [heq]
    exact ⟨hfold.1.trans hcongr.1, fun g => (hfold.2.1 g).trans (hcongr.2.1 g), hfold.2.2.1⟩

theorem gps_inner_metrics (nxt : Option ℚ) (fuel : ℕ) :
    ∀ s m, inv_sim s → gps_inner nxt fuel s = some m →
      qty m = qty s ∧ (∀ g, cnt m g = cnt s g) ∧ inv_sim m := by
  induction fuel with
  | zero => intro s m _ h; exact absurd h (by simp [gps_inner])
  | succ fuel ih =>
    intro s m hinv h
    rw [gps_inner] at h
    by_cases hg : gps_inner_guard nxt s = true
    · rw [if_pos hg] at h
      have hstep := gps_inner_step_metrics nxt s hinv
      have hrec := ih (gps_inner_step nxt s) m hstep.2.2 h
      exact ⟨hrec.1.trans hstep.1, fun g => (hrec.2.1 g).trans (hstep.2.1 g), hrec.2.2⟩
    · rw [if_neg hg] at h
      injection h with h2
      subst h2
      exact ⟨rfl, fun g => rfl, hinv⟩

theorem gps_idle_frame (nxt : Option ℚ) (s : SimState) :
    (gps_idle nxt s).packet_arrivals = s.packet_arrivals ∧ (gps_idle nxt s).flows = s.flows ∧
    (gps_idle nxt s).flow_queues = s.flow_queues ∧
    (gps_idle nxt s).sent_bits_per_flow = s.sent_bits_per_flow ∧
    (gps_idle nxt s).packet_delays_per_flow = s.packet_delays_per_flow := by
  cases nxt with
  | none => exact ⟨rfl, rfl, rfl, rfl, rfl⟩
  | some t =>
    simp only [gps_idle]
    by_cases h : s.time < t
    · rw [if_pos h]
      exact ⟨rfl, rfl, rfl, rfl, rfl⟩
    · rw [if_neg h]
      exact ⟨rfl, rfl, rfl, rfl, rfl⟩

theorem gps_iterate_metrics (fuel : ℕ) (s : SimState) (m : SimState) (hinv : inv_sim s)
    (h : gps_iterate fuel s = some m) :
    qty m = qty s ∧ (∀ g, cnt m g = cnt s g) ∧ inv_sim m := by
  rw [gps_iterate] at h
  rcases Option.map_eq_some'.mp h with ⟨m0, hm0, rfl⟩
  have henv : inv_sim (enqueue_packets s) := enqueue_packets_inv s hinv
  have hinner := gps_inner_metrics _ fuel (enqueue_packets s) m0 henv hm0
  have hframe := gps_idle_frame (((enqueue_packets s).packet_arrivals.head?).map Packet.time) m0
  have hcongr := metrics_congr m0 _ hframe.1 hframe.2.1 hframe.2.2.1 hframe.2.2.2.1
    hframe.2.2.2.2
  exact ⟨hcongr.1.trans (hinner.1.trans (enqueue_packets_qty s hinv)),
    fun g => (hcongr.2.1 g).trans ((hinner.2.1 g).trans (enqueue_packets_cnt s g)),
    hcongr.2.2 hinner.2.2⟩

theorem gps_run_metrics (fuel : ℕ) :
    ∀ s S, inv_sim s → gps_run fuel s = some S →
      qty S = qty s ∧ (∀ g, cnt S g = cnt s g) ∧ inv_sim S ∧ outer_guard S = false := by
  induction fuel with
  | zero => intro s S _ h; exact absurd h (by simp [gps_run])
  | succ fuel ih =>
    intro s S hinv h
    rw [gps_run] at h
    by_cases hg : outer_guard s = true
    · rw [if_pos hg] at h
      rcases Option.bind_eq_some.mp h with ⟨mid, hmid, hrun⟩
      have hit := gps_iterate_metrics (fuel + 1) s mid hinv hmid
      have hrec := ih mid S hit.2.2 hrun
      exact ⟨hrec.1.trans hit.1, fun g => (hrec.2.1 g).trans (hit.2.1 g), hrec.2.2⟩
    · rw [if_neg hg] at h
      injection h with h2
      subst h2
      exact ⟨rfl, fun g => rfl, hinv, by simpa using hg⟩

/-- C6: whenever any of the three run loops completes, the bits
credited as sent across all flows equal the total size of the input
packets, and every flow's delay list has exactly one entry per input
packet of that flow — every packet is finished exactly once. -/
theorem c6_conservation (arr : List Packet) (rate quantum : ℚ) (fuel : ℕ) :
    (∀ S, rr_run fuel (mk_state arr rate) = some S →
      sent_total S = size_total arr ∧
        ∀ f, (S.packet_delays_per_flow f).length = flow_count arr f) ∧
    (∀ S, gps_run fuel (mk_state arr rate) = some S →
      sent_total S = size_total arr ∧
        ∀ f, (S.packet_delays_per_flow f).length = flow_count arr f) ∧
    (∀ D, drr_run fuel (mk_drr_state arr rate quantum) = some D →
      sent_total D.sim = size_total arr ∧
        ∀ f, (D.sim.packet_delays_per_flow f).length = flow_count arr f) := by
  have hinv := mk_state_inv arr rate
  have main : ∀ S : SimState, qty S = qty (mk_state arr rate) →
      (∀ g, cnt S g = cnt (mk_state arr rate) g) → inv_sim S → outer_guard S = false →
      sent_total S = size_total arr ∧
        ∀ f, (S.packet_delays_per_flow f).length = flow_count arr f := by
    intro S h1 h2 hinvS hg
    have hfin := final_metrics S hinvS hg
    constructor
    · rw [← hfin.1, h1, mk_state_qty]
    · intro f
      rw [← hfin.2 f, h2 f, mk_state_cnt]
  refine ⟨?_, ?_, ?_⟩
  · intro S h
    have hm := rr_run_metrics fuel (mk_state arr rate) S hinv h
    exact main S hm.1 hm.2.1 hm.2.2.1 hm.2.2.2
  · intro S h
    have hm := gps_run_metrics fuel (mk_state arr rate) S hinv h
    exact main S hm.1 hm.2.1 hm.2.2.1 hm.2.2.2
  · intro D h
    have hm := drr_run_metrics fuel (mk_drr_state arr rate quantum) D hinv h
    exact main D.sim hm.1 hm.2.1 hm.2.2.1 hm.2.2.2

theorem c6_witness :
    (rr_run 10 (mk_state [mk_packet 0 3 0, mk_packet 1 2 0] 1)).map sent_total =
        some (size_total [mk_packet 0 3 0, mk_packet 1 2 0]) ∧
    (gps_run 20 (mk_state [mk_packet 0 3 0, mk_packet 1 2 0] 1)).map sent_total =
        some (size_total [mk_packet 0 3 0, mk_packet 1 2 0]) ∧
    (drr_run 10 (mk_drr_state [mk_packet 0 3 0, mk_packet 1 2 0] 1 5)).map
        (fun D => sent_total D.sim) =
      some (size_total [mk_packet 0 3 0, mk_packet 1 2 0]) := by
  refine ⟨?_, ?_, ?_⟩
  · obtain ⟨S, hS⟩ : ∃ S, rr_run 10 (mk_state [mk_packet 0 3 0, mk_packet 1 2 0] 1) = some S :=
      ⟨_, by with_unfolding_all rfl⟩
    rw [hS, Option.map_some']
    exact congrArg some
      ((c6_conservation [mk_packet 0 3 0, mk_packet 1 2 0] 1 5 10).1 S hS).1
  · obtain ⟨S, hS⟩ : ∃ S, gps_run 20 (mk_state [mk_packet 0 3 0, mk_packet 1 2 0] 1) = some S :=
      ⟨_, by with_unfolding_all rfl⟩
    rw [hS, Option.map_some']
    exact congrArg some
      ((c6_conservation [mk_packet 0 3 0, mk_packet 1 2 0] 1 5 20).2.1 S hS).1
  · obtain ⟨D, hD⟩ : ∃ D, drr_run 10 (mk_drr_state [mk_packet 0 3 0, mk_packet 1 2 0] 1 5) =
        some D := ⟨_, by with_unfolding_all rfl⟩
    rw [hD, Option.map_some']
    exact congrArg some
      ((c6_conservation [mk_packet 0 3 0, mk_packet 1 2 0] 1 5 10).2.2 D hD).1
